import Mathlib

/-!
Verification of the positional-editing core of the MCP DOCX editor
(`src/server.py`), against its natural-language specification.

Python strings are modelled as `List Char`.  Python's `float` scores are
modelled as exact rationals (`ℚ`): every score in the program is built from
small integer fractions (0.9, 0.1, similarity ratios `2*M/T`), and the claims
under study are order/equality claims about those quantities.

The fuzzy similarity used by the program is
`difflib.SequenceMatcher(None, a.lower(), b.lower()).ratio()`; the matching
algorithm (b-side index with the autojunk purge, the longest-match dynamic
programming loop, the match extension loops and the recursive matching-block
accumulation) is embedded below following the CPython `difflib` source.
-/

namespace DocxSrv

/- Mathlib marks the core `Rat` arithmetic operations `@[irreducible]`, which
blocks `decide` from evaluating concrete scores; restore the default
reducibility so concrete rational comparisons compute. -/
attribute [local semireducible] Rat.mul Rat.add Rat.inv Rat.sub Rat.ofScientific

/-- Characters of a Python string. -/
abbrev Str := List Char

/-- `s.lower()` (modelled character-wise). -/
def lowerS (s : Str) : Str := s.map Char.toLower

/-- Python's whitespace test used by `str.strip()` / `str.lstrip()`. -/
def isWS (c : Char) : Bool := c.isWhitespace

/-- `str.lstrip()`: drop leading whitespace. -/
def lstripS : Str → Str
  | [] => []
  | c :: cs => if isWS c then lstripS cs else c :: cs

/-- `str.strip()`: drop leading and trailing whitespace. -/
def stripS (s : Str) : Str := ((lstripS ((lstripS s).reverse)).reverse)

/-- Python `p in s` (substring containment). -/
def containsSub (p : Str) : Str → Bool
  | [] => p.isEmpty
  | c :: t => p.isPrefixOf (c :: t) || containsSub p t

/-- Split off the text before and after the first occurrence of `p`. -/
def splitFirst (p : Str) : Str → Option (Str × Str)
  | [] => if p.isEmpty then some ([], []) else none
  | c :: t =>
    if p.isPrefixOf (c :: t) then some ([], (c :: t).drop p.length)
    else
      match splitFirst p t with
      | some (pre, suf) => some (c :: pre, suf)
      | none => none

/-- The scan of Python `s.replace(p, v)`, with an explicit step budget.
Every step consumes at least one character of `s`, so a budget above
`s.length` never runs out and the `0` case is unreachable from
`replaceAll`. -/
def replaceAllF (p v : Str) : Nat → Str → Str
  | 0, s => s
  | f + 1, s =>
    if p = [] then v ++ s.flatMap (fun c => c :: v)
    else
      match s with
      | [] => []
      | c :: t =>
        if p.isPrefixOf (c :: t) then
          v ++ replaceAllF p v f ((c :: t).drop p.length)
        else
          c :: replaceAllF p v f t

/-- Python `s.replace(p, v)`: replace every non-overlapping occurrence of
`p`, scanning left to right.  (For the empty pattern Python interleaves `v`
around every character.) -/
def replaceAll (p v : Str) (s : Str) : Str := replaceAllF p v (s.length + 1) s

/-- The scan of Python `s.count(p)` with the same step budget. -/
def countOccsF (p : Str) : Nat → Str → Nat
  | 0, _ => 0
  | f + 1, s =>
    if p = [] then 0
    else
      match s with
      | [] => 0
      | c :: t =>
        if p.isPrefixOf (c :: t) then
          1 + countOccsF p f ((c :: t).drop p.length)
        else
          countOccsF p f t

/-- Python `s.count(p)` for non-empty `p`: the number of non-overlapping
occurrences, counted left to right. -/
def countOccs (p : Str) (s : Str) : Nat := countOccsF p (s.length + 1) s

/-- Split a list on a separator character, Python `s.split(sep)` style
(empty fields are kept). -/
def splitOnCh (sep : Char) : Str → List Str
  | [] => [[]]
  | c :: t =>
    let r := splitOnCh sep t
    if c = sep then [] :: r
    else
      match r with
      | [] => [[c]]
      | f :: rest => (c :: f) :: rest

/-! ## difflib.SequenceMatcher

`similarity(a, b) = SequenceMatcher(None, a.lower(), b.lower()).ratio()`
(`src/server.py`, `similarity`).  The pieces below follow CPython's
`difflib.py`: `__chain_b` (with the autojunk purge of popular elements for
`len(b) >= 200`), `find_longest_match` (without the junk-extension loops,
which are dead code when `isjunk is None` since `bjunk` stays empty),
`get_matching_blocks` (as the total matched size, which is all `ratio`
uses) and `ratio` itself. -/

/-- Character `s[i]` (out-of-range reads never occur on the guarded paths). -/
def chAt (s : Str) (i : Nat) : Char := s.getD i (Char.ofNat 0)

/-- Number of occurrences of character `c` in `b`. -/
def charCount (b : Str) (c : Char) : Nat := (b.filter (fun d => d = c)).length

/-- `__chain_b`'s autojunk purge: for `len(b) >= 200` an element occurring
more than `len(b) // 100 + 1` times is dropped from `b2j`. -/
def keptB (b : Str) (c : Char) : Bool :=
  if 200 ≤ b.length then charCount b c ≤ b.length / 100 + 1 else true

/-- `b2j[c]`: the ascending list of positions of `c` in `b` (empty when the
autojunk purge removed `c`). -/
def bIdx (b : Str) (c : Char) : List Nat :=
  if keptB b c then (List.range b.length).filter (fun j => chAt b j = c) else []

/-- State of the `find_longest_match` dynamic-programming loop: the
`newj2len` association list being built for the current row, and the best
match `(bi, bj, bs)` found so far. -/
structure MSt where
  j2len : List (Nat × Nat)
  bi : Nat
  bj : Nat
  bs : Nat
deriving Repr, DecidableEq

/-- `j2len.get(j, 0)`. -/
def jgetA (m : List (Nat × Nat)) (j : Nat) : Nat :=
  match m.find? (fun e => e.1 = j) with
  | some e => e.2
  | none => 0

/-- The inner loop of `find_longest_match` over `b2j[a[i]]` for one row `i`:
`if j < blo: continue`, `if j >= bhi: break`, extend the run ending at
`(i, j)` and keep the strictly best match.  `newj2len` entries are
accumulated (order is irrelevant: keys within one row are distinct).
In CPython `besti = i - k + 1` with `k <= i + 1` always; here the
truncated `i + 1 - k` is the same quantity. -/
def flmInner (blo bhi i : Nat) (prev : List (Nat × Nat)) :
    List Nat → MSt → MSt
  | [], st => st
  | j :: js, st =>
    if j < blo then flmInner blo bhi i prev js st
    else if bhi ≤ j then st
    else
      let k := (if j = 0 then 0 else jgetA prev (j - 1)) + 1
      if st.bs < k then
        flmInner blo bhi i prev js
          ⟨(j, k) :: st.j2len, i + 1 - k, j + 1 - k, k⟩
      else
        flmInner blo bhi i prev js ⟨(j, k) :: st.j2len, st.bi, st.bj, st.bs⟩

/-- The outer loop of `find_longest_match` over rows `alo .. ahi-1`; each
row starts a fresh `newj2len` and consumes the previous row's `j2len`. -/
def flmRows (bIdxF : Char → List Nat) (a : Str) (blo bhi : Nat) :
    List Nat → MSt → MSt
  | [], st => st
  | i :: is, st =>
    flmRows bIdxF a blo bhi is
      (flmInner blo bhi i st.j2len (bIdxF (chAt a i)) ⟨[], st.bi, st.bj, st.bs⟩)

/-- The leftward extension loop of `find_longest_match`
(`while besti > alo and bestj > blo and a[besti-1] == b[bestj-1]`);
`besti` decreases by one per iteration, so the recursion is structural in
it (`bi = 0` cannot satisfy `alo < bi`, matching the loop guard). -/
def extLeft (a b : Str) (alo blo : Nat) : Nat → Nat → Nat → Nat × Nat × Nat
  | 0, bj, bs => (0, bj, bs)
  | bi + 1, bj, bs =>
    if alo < bi + 1 ∧ blo < bj ∧ chAt a bi = chAt b (bj - 1) then
      extLeft a b alo blo bi (bj - 1) (bs + 1)
    else (bi + 1, bj, bs)

/-- The rightward extension loop with its exact iteration budget
`ahi - (besti + bestsize)`: when the budget is `0` the loop guard
`besti + bestsize < ahi` is false anyway, so the two stop the same way. -/
def extRightF (a b : Str) (ahi bhi bi bj : Nat) : Nat → Nat → Nat × Nat × Nat
  | 0, bs => (bi, bj, bs)
  | f + 1, bs =>
    if bi + bs < ahi ∧ bj + bs < bhi ∧ chAt a (bi + bs) = chAt b (bj + bs) then
      extRightF a b ahi bhi bi bj f (bs + 1)
    else (bi, bj, bs)

/-- The rightward extension loop of `find_longest_match`
(`while besti+bestsize < ahi and bestj+bestsize < bhi and ...`). -/
def extRight (a b : Str) (ahi bhi : Nat) (bi bj bs : Nat) : Nat × Nat × Nat :=
  extRightF a b ahi bhi bi bj (ahi - (bi + bs)) bs

/-- `find_longest_match(alo, ahi, blo, bhi)` on `a`, `b` with the b-side
index `bIdxF`.  Returns `(besti, bestj, bestsize)`. -/
def flm (a b : Str) (bIdxF : Char → List Nat) (alo ahi blo bhi : Nat) :
    Nat × Nat × Nat :=
  let st := flmRows bIdxF a blo bhi (List.range' alo (ahi - alo)) ⟨[], alo, blo, 0⟩
  let l := extLeft a b alo blo st.bi st.bj st.bs
  extRight a b ahi bhi l.1 l.2.1 l.2.2

/-- Window bounds for the `j2len` entries built up to (and including) a row
with `rowB = row + 1 - alo`. -/
def EInv (blo bhi rowB : Nat) (m : List (Nat × Nat)) : Prop :=
  ∀ e ∈ m, blo ≤ e.1 ∧ e.1 < bhi ∧ e.2 ≤ e.1 + 1 - blo ∧ e.2 ≤ rowB

/-- Window bounds for the best match tracked by the DP loop. -/
def BInv (alo ahi blo bhi : Nat) (st : MSt) : Prop :=
  (st.bi = alo ∧ st.bj = blo ∧ st.bs = 0) ∨
  (alo ≤ st.bi ∧ blo ≤ st.bj ∧ 1 ≤ st.bs ∧ st.bi + st.bs ≤ ahi ∧ st.bj + st.bs ≤ bhi)

theorem jgetA_cases (m : List (Nat × Nat)) (t : Nat) :
    jgetA m t = 0 ∨ ∃ e ∈ m, e.1 = t ∧ jgetA m t = e.2 := by
  unfold jgetA
  cases hf : m.find? (fun e => e.1 = t) with
  | none => exact Or.inl rfl
  | some e =>
    right
    refine ⟨e, List.mem_of_find?_eq_some hf, ?_, rfl⟩
    have := List.find?_some hf
    exact of_decide_eq_true this

theorem flmInner_inv (blo bhi alo ahi i : Nat) (halo : alo ≤ i) (hahi : i < ahi)
    (prev : List (Nat × Nat)) (hprev : EInv blo bhi (i - alo) prev) :
    ∀ (js : List Nat) (st : MSt), BInv alo ahi blo bhi st →
      EInv blo bhi (i + 1 - alo) st.j2len →
      BInv alo ahi blo bhi (flmInner blo bhi i prev js st) ∧
        EInv blo bhi (i + 1 - alo) (flmInner blo bhi i prev js st).j2len := by
  intro js
  induction js with
  | nil => intro st h1 h2; exact ⟨h1, h2⟩
  | cons j js ih =>
    intro st h1 h2
    by_cases hjlo : j < blo
    · rw [flmInner, if_pos hjlo]; exact ih st h1 h2
    · by_cases hjhi : bhi ≤ j
      · rw [flmInner, if_neg hjlo, if_pos hjhi]; exact ⟨h1, h2⟩
      · rw [flmInner, if_neg hjlo, if_neg hjhi]
        push_neg at hjlo hjhi
        have hk : (if j = 0 then 0 else jgetA prev (j - 1)) + 1 ≤ j + 1 - blo ∧
            (if j = 0 then 0 else jgetA prev (j - 1)) + 1 ≤ i + 1 - alo := by
          by_cases hj0 : j = 0
          · subst hj0; simp only [if_pos]
            constructor <;> omega
          · rw [if_neg hj0]
            rcases jgetA_cases prev (j - 1) with h | ⟨e, hem, het, hev⟩
            · rw [h]; constructor <;> omega
            · have := hprev e hem
              rw [hev]
              omega
        set k := (if j = 0 then 0 else jgetA prev (j - 1)) + 1 with hkdef
        by_cases hup : st.bs < k
        · rw [if_pos hup]
          apply ih
          · refine Or.inr ⟨?_, ?_, ?_, ?_, ?_⟩ <;> dsimp only <;> omega
          · intro e he
            dsimp only at he
            rcases List.mem_cons.mp he with he | he
            · subst he
              refine ⟨?_, ?_, ?_, ?_⟩ <;> dsimp only <;> omega
            · exact h2 e he
        · rw [if_neg hup]
          apply ih
          · rcases h1 with h1 | h1
            · refine Or.inl ⟨?_, ?_, ?_⟩ <;> dsimp only <;> omega
            · refine Or.inr ⟨?_, ?_, ?_, ?_, ?_⟩ <;> dsimp only <;> omega
          · intro e he
            dsimp only at he
            rcases List.mem_cons.mp he with he | he
            · subst he
              refine ⟨?_, ?_, ?_, ?_⟩ <;> dsimp only <;> omega
            · exact h2 e he

theorem flmRows_inv (bIdxF : Char → List Nat) (a : Str) (blo bhi alo ahi : Nat) :
    ∀ (cnt lo : Nat), alo ≤ lo → (cnt = 0 ∨ lo + cnt ≤ ahi) →
      ∀ st : MSt, BInv alo ahi blo bhi st → EInv blo bhi (lo - alo) st.j2len →
        BInv alo ahi blo bhi (flmRows bIdxF a blo bhi (List.range' lo cnt) st) := by
  intro cnt
  induction cnt with
  | zero => intro lo _ _ st h1 _; simpa [flmRows] using h1
  | succ n ih =>
    intro lo hlo hhi'
    have hhi : lo + (n + 1) ≤ ahi := by omega
    intro st h1 h2
    rw [List.range'_succ, flmRows]
    have hinner := flmInner_inv blo bhi alo ahi lo hlo (by omega) st.j2len h2
      (bIdxF (chAt a lo)) ⟨[], st.bi, st.bj, st.bs⟩
      (by rcases h1 with h | h
          · exact Or.inl ⟨h.1, h.2.1, h.2.2⟩
          · exact Or.inr h)
      (by intro e he; simp at he)
    exact ih (lo + 1) (by omega) (by omega) _ hinner.1
      (by simpa using hinner.2)

theorem extLeft_spec (a b : Str) (alo blo : Nat) :
    ∀ bi bj bs : Nat, alo ≤ bi → blo ≤ bj →
      alo ≤ (extLeft a b alo blo bi bj bs).1 ∧
        blo ≤ (extLeft a b alo blo bi bj bs).2.1 ∧
        (extLeft a b alo blo bi bj bs).1 + (extLeft a b alo blo bi bj bs).2.2 = bi + bs ∧
        (extLeft a b alo blo bi bj bs).2.1 + (extLeft a b alo blo bi bj bs).2.2 = bj + bs ∧
        bs ≤ (extLeft a b alo blo bi bj bs).2.2 := by
  intro bi
  induction bi with
  | zero =>
    intro bj bs h1 h2
    rw [extLeft]
    exact ⟨h1, h2, rfl, rfl, le_refl _⟩
  | succ bi ih =>
    intro bj bs h1 h2
    rw [extLeft]
    by_cases hg : alo < bi + 1 ∧ blo < bj ∧ chAt a bi = chAt b (bj - 1)
    · rw [if_pos hg]
      have := ih (bj - 1) (bs + 1) (by omega) (by omega)
      refine ⟨this.1, this.2.1, by omega, by omega, by omega⟩
    · rw [if_neg hg]
      exact ⟨h1, h2, rfl, rfl, le_refl _⟩

theorem extRightF_spec (a b : Str) (ahi bhi bi bj : Nat) :
    ∀ (f : Nat) (bs : Nat),
      (extRightF a b ahi bhi bi bj f bs).1 = bi ∧
        (extRightF a b ahi bhi bi bj f bs).2.1 = bj ∧
        bs ≤ (extRightF a b ahi bhi bi bj f bs).2.2 ∧
        ((extRightF a b ahi bhi bi bj f bs).2.2 = bs ∨
          (bi + (extRightF a b ahi bhi bi bj f bs).2.2 ≤ ahi ∧
            bj + (extRightF a b ahi bhi bi bj f bs).2.2 ≤ bhi)) := by
  intro f
  induction f with
  | zero =>
    intro bs
    rw [extRightF]
    exact ⟨rfl, rfl, le_refl _, Or.inl rfl⟩
  | succ n ih =>
    intro bs
    rw [extRightF]
    by_cases hg : bi + bs < ahi ∧ bj + bs < bhi ∧ chAt a (bi + bs) = chAt b (bj + bs)
    · rw [if_pos hg]
      have := ih (bs + 1)
      refine ⟨this.1, this.2.1, by omega, ?_⟩
      rcases this.2.2.2 with h | h
      · exact Or.inr ⟨by omega, by omega⟩
      · exact Or.inr h
    · rw [if_neg hg]
      exact ⟨rfl, rfl, le_refl _, Or.inl rfl⟩

theorem extRight_spec (a b : Str) (ahi bhi bi bj bs : Nat) :
    (extRight a b ahi bhi bi bj bs).1 = bi ∧
      (extRight a b ahi bhi bi bj bs).2.1 = bj ∧
      bs ≤ (extRight a b ahi bhi bi bj bs).2.2 ∧
      ((extRight a b ahi bhi bi bj bs).2.2 = bs ∨
        (bi + (extRight a b ahi bhi bi bj bs).2.2 ≤ ahi ∧
          bj + (extRight a b ahi bhi bi bj bs).2.2 ≤ bhi)) :=
  extRightF_spec a b ahi bhi bi bj (ahi - (bi + bs)) bs

theorem extLR_le (a b : Str) (alo ahi blo bhi : Nat) (st : MSt)
    (hb : BInv alo ahi blo bhi st)
    (h : 1 ≤ (extRight a b ahi bhi
        (extLeft a b alo blo st.bi st.bj st.bs).1
        (extLeft a b alo blo st.bi st.bj st.bs).2.1
        (extLeft a b alo blo st.bi st.bj st.bs).2.2).2.2) :
    alo ≤ (extRight a b ahi bhi
        (extLeft a b alo blo st.bi st.bj st.bs).1
        (extLeft a b alo blo st.bi st.bj st.bs).2.1
        (extLeft a b alo blo st.bi st.bj st.bs).2.2).1 ∧
      (extRight a b ahi bhi
        (extLeft a b alo blo st.bi st.bj st.bs).1
        (extLeft a b alo blo st.bi st.bj st.bs).2.1
        (extLeft a b alo blo st.bi st.bj st.bs).2.2).1 +
        (extRight a b ahi bhi
        (extLeft a b alo blo st.bi st.bj st.bs).1
        (extLeft a b alo blo st.bi st.bj st.bs).2.1
        (extLeft a b alo blo st.bi st.bj st.bs).2.2).2.2 ≤ ahi ∧
      blo ≤ (extRight a b ahi bhi
        (extLeft a b alo blo st.bi st.bj st.bs).1
        (extLeft a b alo blo st.bi st.bj st.bs).2.1
        (extLeft a b alo blo st.bi st.bj st.bs).2.2).2.1 ∧
      (extRight a b ahi bhi
        (extLeft a b alo blo st.bi st.bj st.bs).1
        (extLeft a b alo blo st.bi st.bj st.bs).2.1
        (extLeft a b alo blo st.bi st.bj st.bs).2.2).2.1 +
        (extRight a b ahi bhi
        (extLeft a b alo blo st.bi st.bj st.bs).1
        (extLeft a b alo blo st.bi st.bj st.bs).2.1
        (extLeft a b alo blo st.bi st.bj st.bs).2.2).2.2 ≤ bhi := by
  have hbi : alo ≤ st.bi := by rcases hb with hb | hb <;> omega
  have hbj : blo ≤ st.bj := by rcases hb with hb | hb <;> omega
  have hl := extLeft_spec a b alo blo st.bi st.bj st.bs hbi hbj
  set l := extLeft a b alo blo st.bi st.bj st.bs with hldef
  have hr := extRight_spec a b ahi bhi l.1 l.2.1 l.2.2
  rcases hr.2.2.2 with h0 | hbd
  · -- the right extension did not move: the final size is the extLeft size
    rcases hb with hb | hb
    · -- DP best was empty: extLeft cannot have fired, so the size is 0
      have : l.2.2 = 0 := by omega
      omega
    · exact ⟨by omega, by omega, by omega, by omega⟩
  · exact ⟨by omega, by omega, by omega, by omega⟩

/-- Window bounds of `find_longest_match`: a non-empty result match lies
within the requested windows. -/
theorem flm_le (a b : Str) (bIdxF : Char → List Nat) (alo ahi blo bhi : Nat)
    (h : 1 ≤ (flm a b bIdxF alo ahi blo bhi).2.2) :
    alo ≤ (flm a b bIdxF alo ahi blo bhi).1 ∧
      (flm a b bIdxF alo ahi blo bhi).1 + (flm a b bIdxF alo ahi blo bhi).2.2 ≤ ahi ∧
      blo ≤ (flm a b bIdxF alo ahi blo bhi).2.1 ∧
      (flm a b bIdxF alo ahi blo bhi).2.1 + (flm a b bIdxF alo ahi blo bhi).2.2 ≤ bhi := by
  have hrows := flmRows_inv bIdxF a blo bhi alo ahi (ahi - alo) alo (le_refl _)
    (by omega) ⟨[], alo, blo, 0⟩ (Or.inl ⟨rfl, rfl, rfl⟩) (by intro e he; simp at he)
  exact extLR_le a b alo ahi blo bhi _ hrows h

/-- Weight of a queue region `(alo, ahi, blo, bhi)`: the step budget of the
matching-block recursion. -/
def regionW : Nat × Nat × Nat × Nat → Nat
  | (alo, ahi, blo, bhi) => (ahi - alo) + (bhi - blo) + 1

/-- One step of `get_matching_blocks`'s LIFO queue recursion, keeping only
the sum of block sizes (which is all `ratio` consumes; the final merge of
adjacent blocks preserves the sum).  The step budget decreases by one per
popped region while the total queue weight `regionW` decreases by at least
one, so a budget above the initial weight never reaches `0`. -/
def mbTotalF (a b : Str) (bIdxF : Char → List Nat) :
    Nat → List (Nat × Nat × Nat × Nat) → Nat
  | 0, _ => 0
  | _ + 1, [] => 0
  | f + 1, (alo, ahi, blo, bhi) :: rest =>
    if (flm a b bIdxF alo ahi blo bhi).2.2 = 0 then mbTotalF a b bIdxF f rest
    else
      (flm a b bIdxF alo ahi blo bhi).2.2 + mbTotalF a b bIdxF f
        ((if (flm a b bIdxF alo ahi blo bhi).1 + (flm a b bIdxF alo ahi blo bhi).2.2 < ahi ∧
              (flm a b bIdxF alo ahi blo bhi).2.1 + (flm a b bIdxF alo ahi blo bhi).2.2 < bhi then
            [((flm a b bIdxF alo ahi blo bhi).1 + (flm a b bIdxF alo ahi blo bhi).2.2, ahi,
              (flm a b bIdxF alo ahi blo bhi).2.1 + (flm a b bIdxF alo ahi blo bhi).2.2, bhi)]
          else []) ++
          (if alo < (flm a b bIdxF alo ahi blo bhi).1 ∧ blo < (flm a b bIdxF alo ahi blo bhi).2.1 then
            [(alo, (flm a b bIdxF alo ahi blo bhi).1, blo, (flm a b bIdxF alo ahi blo bhi).2.1)]
          else []) ++ rest)

/-- The total matched size of `get_matching_blocks`, run with an adequate
step budget. -/
def mbTotal (a b : Str) (bIdxF : Char → List Nat)
    (q : List (Nat × Nat × Nat × Nat)) : Nat :=
  mbTotalF a b bIdxF ((q.map regionW).sum + 1) q

theorem mbTotalF_nil (a b : Str) (bIdxF : Char → List Nat) (f : Nat) :
    mbTotalF a b bIdxF f [] = 0 := by
  cases f <;> rfl

/-- Any step budget above the queue weight computes the same total: the
budget in `mbTotal` is canonical and the `0` fallback is unreachable. -/
theorem mbTotalF_fuel (a b : Str) (bIdxF : Char → List Nat) :
    ∀ (f1 f2 : Nat) (q : List (Nat × Nat × Nat × Nat)),
      (q.map regionW).sum < f1 → (q.map regionW).sum < f2 →
      mbTotalF a b bIdxF f1 q = mbTotalF a b bIdxF f2 q := by
  intro f1
  induction f1 with
  | zero => intro f2 q h1 _; exact absurd h1 (Nat.not_lt_zero _)
  | succ g ih =>
    intro f2 q h1 h2
    cases f2 with
    | zero => exact absurd h2 (Nat.not_lt_zero _)
    | succ h =>
      cases q with
      | nil => rw [mbTotalF_nil, mbTotalF_nil]
      | cons r rest =>
        obtain ⟨alo, ahi, blo, bhi⟩ := r
        have hw : 1 ≤ regionW (alo, ahi, blo, bhi) := by simp only [regionW]; omega
        simp only [List.map_cons, List.sum_cons] at h1 h2
        rw [mbTotalF, mbTotalF]
        by_cases hk : (flm a b bIdxF alo ahi blo bhi).2.2 = 0
        · rw [if_pos hk, if_pos hk]
          exact ih h rest (by omega) (by omega)
        · rw [if_neg hk, if_neg hk]
          congr 1
          have hb := flm_le a b bIdxF alo ahi blo bhi (by omega)
          simp only [regionW] at h1 h2
          apply ih h
          all_goals
            by_cases hc1 : (flm a b bIdxF alo ahi blo bhi).1 + (flm a b bIdxF alo ahi blo bhi).2.2 < ahi ∧
                (flm a b bIdxF alo ahi blo bhi).2.1 + (flm a b bIdxF alo ahi blo bhi).2.2 < bhi <;>
              by_cases hc2 : alo < (flm a b bIdxF alo ahi blo bhi).1 ∧ blo < (flm a b bIdxF alo ahi blo bhi).2.1 <;>
              [rw [if_pos hc1, if_pos hc2]; rw [if_pos hc1, if_neg hc2];
                rw [if_neg hc1, if_pos hc2]; rw [if_neg hc1, if_neg hc2]] <;>
              simp only [List.map_append, List.sum_append, List.map_cons, List.sum_cons,
                List.map_nil, List.sum_nil, List.nil_append, regionW] <;>
              omega

/-- `difflib._calculate_ratio`. -/
def calcRatio (m la lb : Nat) : ℚ :=
  if la + lb = 0 then 1 else (2 * m : ℚ) / (la + lb)

/-- `SequenceMatcher.ratio()` on the two character lists. -/
def ratioQ (a b : Str) : ℚ :=
  calcRatio (mbTotal a b (bIdx b) [(0, a.length, 0, b.length)]) a.length b.length

/-- `similarity(a, b)` from `src/server.py`: the `SequenceMatcher` ratio of
the two lower-cased strings. -/
def similarity (a b : Str) : ℚ := ratioQ (lowerS a) (lowerS b)

/-! ### `ratio` is `1` on identical inputs

The DP best match on `a = b` over the full symmetric window always stays on
the diagonal, and the extension loops then stretch any diagonal match to the
whole string. -/

/-- Whether position `i` of `b` survives the autojunk purge. -/
def keptD (L : Str) (i : Nat) : Bool := keptB L (chAt L i)

/-- Length of the purge-surviving run of positions ending at `i`. -/
def krun (L : Str) : Nat → Nat
  | 0 => if keptD L 0 then 1 else 0
  | r + 1 => if keptD L (r + 1) then krun L r + 1 else 0

/-- `krun` of the row before row `i` (`0` for the first row). -/
def prevKR (L : Str) : Nat → Nat
  | 0 => 0
  | r + 1 => krun L r

theorem krun_le (L : Str) : ∀ i, krun L i ≤ i + 1 := by
  intro i
  induction i with
  | zero => unfold krun; split <;> omega
  | succ r ih => unfold krun; split <;> omega

theorem mem_bIdx (L : Str) (c : Char) (j : Nat) :
    j ∈ bIdx L c ↔ (keptB L c = true ∧ j < L.length ∧ chAt L j = c) := by
  unfold bIdx
  split
  · next hk =>
    simp only [List.mem_filter, List.mem_range, decide_eq_true_eq]
    tauto
  · next hk =>
    simp only [List.not_mem_nil, false_iff]
    tauto

theorem bIdx_sorted (L : Str) (c : Char) : List.Pairwise (· < ·) (bIdx L c) := by
  unfold bIdx
  split
  · exact (List.pairwise_lt_range L.length).filter _
  · exact List.Pairwise.nil

theorem jgetA_cons_self (j k : Nat) (m : List (Nat × Nat)) :
    jgetA ((j, k) :: m) j = k := by
  unfold jgetA
  rw [List.find?_cons_of_pos _ (by simp)]

theorem jgetA_cons_ne (j' j k : Nat) (m : List (Nat × Nat)) (h : j' ≠ j) :
    jgetA ((j', k) :: m) j = jgetA m j := by
  unfold jgetA
  rw [List.find?_cons_of_neg _ (by simp [h])]

/-- On `a = b = L` with the full symmetric window, one DP row keeps the best
match on the diagonal, pushes the diagonal's exact `krun` entry, and caps
every entry by its `krun` values. -/
theorem flmInner_diag (L : Str) (i : Nat) (hin : i < L.length)
    (prev : List (Nat × Nat))
    (hprevE : ∀ e ∈ prev, e.2 ≤ krun L e.1 ∧ e.2 ≤ prevKR L i)
    (hprevD : jgetA prev (i - 1) = prevKR L i) :
    ∀ (js : List Nat) (st : MSt),
      (∀ j ∈ js, j ∈ bIdx L (chAt L i)) →
      List.Pairwise (· < ·) js →
      st.bi = st.bj → st.bi + st.bs ≤ i + 1 →
      (∀ r, r < i → krun L r ≤ st.bs) →
      (i ∈ js ∨ krun L i ≤ st.bs) →
      (∀ e ∈ st.j2len, e.2 ≤ krun L e.1 ∧ e.2 ≤ krun L i) →
      ((i ∈ js ∧ ∀ e ∈ st.j2len, e.1 ≠ i) ∨ jgetA st.j2len i = krun L i) →
      (flmInner 0 L.length i prev js st).bi = (flmInner 0 L.length i prev js st).bj ∧
        (flmInner 0 L.length i prev js st).bi + (flmInner 0 L.length i prev js st).bs ≤ i + 1 ∧
        (∀ r, r < i + 1 → krun L r ≤ (flmInner 0 L.length i prev js st).bs) ∧
        (∀ e ∈ (flmInner 0 L.length i prev js st).j2len,
          e.2 ≤ krun L e.1 ∧ e.2 ≤ krun L i) ∧
        jgetA (flmInner 0 L.length i prev js st).j2len i = krun L i := by
  intro js
  induction js with
  | nil =>
    intro st _ _ hd hle hall hdone hent hkey
    rw [flmInner]
    have hkr : krun L i ≤ st.bs := by
      rcases hdone with h | h
      · simp at h
      · exact h
    refine ⟨hd, hle, ?_, hent, ?_⟩
    · intro r hr
      rcases Nat.lt_succ_iff_lt_or_eq.mp hr with h | h
      · exact hall r h
      · subst h; exact hkr
    · rcases hkey with ⟨h, _⟩ | h
      · simp at h
      · exact h
  | cons j js ih =>
    intro st hmem hsort hd hle hall hdone hent hkey
    have hj := (mem_bIdx L (chAt L i) j).mp (hmem j (List.mem_cons_self _ _))
    obtain ⟨hkc, hjn, hjc⟩ := hj
    -- position i itself survives the purge
    have hkepti : keptD L i = true := hkc
    have hkeptj : keptD L j = true := by unfold keptD; rw [hjc]; exact hkc
    have hkri : 1 ≤ krun L i := by
      cases i with
      | zero => unfold krun; rw [if_pos hkepti]
      | succ r => unfold krun; rw [if_pos hkepti]; omega
    have hkrj : 1 ≤ krun L j := by
      cases j with
      | zero => unfold krun; rw [if_pos hkeptj]
      | succ r => unfold krun; rw [if_pos hkeptj]; omega
    rw [flmInner, if_neg (by omega), if_neg (by omega)]
    set k := (if j = 0 then 0 else jgetA prev (j - 1)) + 1 with hkdef
    -- `k` is capped by the runs ending at `j` (b side) and at `i` (row side)
    have hk1 : k ≤ krun L j := by
      cases j with
      | zero =>
        rw [hkdef, if_pos rfl]
        exact hkrj
      | succ r =>
        rw [hkdef, if_neg (by omega)]
        simp only [Nat.add_sub_cancel]
        have : jgetA prev r ≤ krun L r := by
          rcases jgetA_cases prev r with h | ⟨e, hem, het, hev⟩
          · omega
          · have := (hprevE e hem).1
            rw [hev, het] at *
            omega
        unfold krun
        rw [if_pos hkeptj]
        omega
    have hk2 : k ≤ krun L i := by
      have hkp : ∀ t, jgetA prev t ≤ prevKR L i := by
        intro t
        rcases jgetA_cases prev t with h | ⟨e, hem, het, hev⟩
        · omega
        · have := (hprevE e hem).2
          omega
      have hki : krun L i = prevKR L i + 1 := by
        cases i with
        | zero => unfold krun prevKR; rw [if_pos hkepti]
        | succ r => unfold krun prevKR; rw [if_pos hkepti]
      cases j with
      | zero => rw [hkdef, if_pos rfl]; omega
      | succ r =>
        rw [hkdef, if_neg (by omega)]
        simp only [Nat.add_sub_cancel]
        have := hkp r
        omega
    have hkd : j = i → k = krun L i := by
      intro hji
      subst hji
      cases j with
      | zero =>
        rw [hkdef, if_pos rfl]
        unfold krun
        rw [if_pos hkeptj]
      | succ r =>
        rw [hkdef, if_neg (by omega)]
        simp only [Nat.add_sub_cancel]
        have h1 : jgetA prev r = prevKR L (r + 1) := by simpa using hprevD
        have h2 : prevKR L (r + 1) = krun L r := rfl
        have h3 : krun L (r + 1) = krun L r + 1 := by
          rw [krun, if_pos hkeptj]
        omega
    by_cases hup : st.bs < k
    · rw [if_pos hup]
      -- only the diagonal position can strictly improve the best
      have hji : j = i := by
        rcases Nat.lt_trichotomy j i with h | h | h
        · exact absurd (lt_of_le_of_lt (le_trans hk1 (hall j h)) hup) (lt_irrefl _)
        · exact h
        · -- j > i: i is no longer in the list, so the diagonal was done
          exfalso
          have : krun L i ≤ st.bs := by
            rcases hdone with hmem' | hkr
            · rcases List.mem_cons.mp hmem' with h' | h'
              · omega
              · have := List.pairwise_cons.mp hsort
                have := this.1 i h'
                omega
            · exact hkr
          omega
      subst hji
      have hkk := hkd rfl
      apply ih
      · intro x hx; exact hmem x (List.mem_cons_of_mem _ hx)
      · exact (List.pairwise_cons.mp hsort).2
      · rfl
      · dsimp only
        have := krun_le L j
        omega
      · intro r hr
        dsimp only
        have := hall r hr
        omega
      · right
        dsimp only
        omega
      · intro e he
        dsimp only at he
        rcases List.mem_cons.mp he with he | he
        · subst he; constructor <;> dsimp only <;> omega
        · exact hent e he
      · right
        dsimp only
        rw [jgetA_cons_self]
        omega
    · rw [if_neg hup]
      apply ih
      · intro x hx; exact hmem x (List.mem_cons_of_mem _ hx)
      · exact (List.pairwise_cons.mp hsort).2
      · exact hd
      · exact hle
      · exact hall
      · -- the diagonal is either still ahead, or already dominated
        by_cases hji : j = i
        · right
          dsimp only
          have := hkd hji
          omega
        · rcases hdone with hmem' | hkr
          · rcases List.mem_cons.mp hmem' with h' | h'
            · exact absurd h'.symm hji
            · exact Or.inl h'
          · exact Or.inr hkr
      · intro e he
        dsimp only at he
        rcases List.mem_cons.mp he with he | he
        · subst he; constructor <;> dsimp only <;> omega
        · exact hent e he
      · by_cases hji : j = i
        · right
          subst hji
          dsimp only
          rw [jgetA_cons_self]
          exact (hkd rfl).symm ▸ rfl
        · rcases hkey with ⟨hmem', hnone⟩ | hjget
          · rcases List.mem_cons.mp hmem' with h' | h'
            · exact absurd h'.symm hji
            · left
              refine ⟨h', ?_⟩
              intro e he
              dsimp only at he
              rcases List.mem_cons.mp he with he | he
              · subst he; exact hji
              · exact hnone e he
          · right
            dsimp only
            rw [jgetA_cons_ne _ _ _ _ hji]
            exact hjget

/-- On `a = b = L` over the full window, the whole DP keeps the best match
diagonal and within bounds. -/
theorem flmRows_diag (L : Str) :
    ∀ (cnt lo : Nat), lo + cnt ≤ L.length →
      ∀ st : MSt,
        st.bi = st.bj → st.bi + st.bs ≤ lo →
        (∀ r, r < lo → krun L r ≤ st.bs) →
        (∀ e ∈ st.j2len, e.2 ≤ krun L e.1 ∧ e.2 ≤ prevKR L lo) →
        jgetA st.j2len (lo - 1) = prevKR L lo →
        (flmRows (bIdx L) L 0 L.length (List.range' lo cnt) st).bi =
            (flmRows (bIdx L) L 0 L.length (List.range' lo cnt) st).bj ∧
          (flmRows (bIdx L) L 0 L.length (List.range' lo cnt) st).bi +
            (flmRows (bIdx L) L 0 L.length (List.range' lo cnt) st).bs ≤ lo + cnt := by
  intro cnt
  induction cnt with
  | zero =>
    intro lo _ st h1 h2 _ _ _
    rw [List.range'_zero, flmRows]
    omega
  | succ n ih =>
    intro lo hcnt st h1 h2 h3 h4 h5
    rw [List.range'_succ, flmRows]
    have hlt : lo < L.length := by omega
    have hinner := flmInner_diag L lo hlt st.j2len h4 h5
      (bIdx L (chAt L lo)) ⟨[], st.bi, st.bj, st.bs⟩
      (fun j hj => hj) (bIdx_sorted L (chAt L lo)) h1 (by dsimp only; omega)
      (by intro r hr; dsimp only; exact h3 r hr)
      (?_) (by intro e he; simp at he) (?_)
    · have := ih (lo + 1) (by omega) _ hinner.1 hinner.2.1
        (fun r hr => hinner.2.2.1 r hr)
        (by
          intro e he
          have := hinner.2.2.2.1 e he
          exact ⟨this.1, by simpa [prevKR] using this.2⟩)
        (by simpa [prevKR] using hinner.2.2.2.2)
      refine ⟨this.1, by omega⟩
    · -- the diagonal position is in the row's index list iff `lo` is kept
      by_cases hk : keptD L lo = true
      · exact Or.inl ((mem_bIdx L (chAt L lo) lo).mpr ⟨hk, hlt, rfl⟩)
      · right
        dsimp only
        have : krun L lo = 0 := by
          cases hlo : lo with
          | zero => rw [krun]; rw [if_neg (by rw [← hlo]; simpa using hk)]
          | succ r => rw [krun]; rw [if_neg (by rw [← hlo]; simpa using hk)]
        omega
    · -- initial row accumulator: empty, so the key facts start out clean
      by_cases hk : keptD L lo = true
      · exact Or.inl ⟨(mem_bIdx L (chAt L lo) lo).mpr ⟨hk, hlt, rfl⟩,
          by intro e he; simp at he⟩
      · right
        dsimp only
        have h0 : jgetA ([] : List (Nat × Nat)) lo = 0 := by
          unfold jgetA
          simp
        rw [h0]
        cases hlo : lo with
        | zero => rw [krun]; rw [if_neg (by rw [← hlo]; simpa using hk)]
        | succ r => rw [krun]; rw [if_neg (by rw [← hlo]; simpa using hk)]

/-- The left extension of a diagonal match on `a = b = L` runs to the left
edge of the window. -/
theorem extLeft_diag (L : Str) : ∀ (t s : Nat), extLeft L L 0 0 t t s = (0, 0, s + t) := by
  intro t
  induction t with
  | zero =>
    intro s
    rw [extLeft, Nat.add_zero]
  | succ r ih =>
    intro s
    rw [extLeft, if_pos ⟨by omega, by omega, rfl⟩]
    simp only [Nat.add_sub_cancel]
    rw [ih (s + 1)]
    have : s + 1 + r = s + (r + 1) := by omega
    rw [this]

theorem extRight_diagAux (L : Str) (n : Nat) :
    ∀ (f s : Nat), n - s = f → s ≤ n →
      extRightF L L n n 0 0 f s = (0, 0, n) := by
  intro f
  induction f with
  | zero =>
    intro s h1 h2
    rw [extRightF]
    have : s = n := by omega
    rw [this]
  | succ m ih =>
    intro s h1 h2
    rw [extRightF, if_pos ⟨by omega, by omega, rfl⟩]
    exact ih (s + 1) (by omega) (by omega)

/-- The right extension of a diagonal match at the window start on
`a = b = L` runs to the right edge. -/
theorem extRight_diag (L : Str) (n s : Nat) (h : s ≤ n) :
    extRight L L n n 0 0 s = (0, 0, n) := by
  unfold extRight
  exact extRight_diagAux L n (n - (0 + s)) s (by omega) h

/-- `find_longest_match` on two copies of the same string over the full
window returns the whole string. -/
theorem flm_diag (L : Str) :
    flm L L (bIdx L) 0 L.length 0 L.length = (0, 0, L.length) := by
  have hrows := flmRows_diag L L.length 0 (by omega) ⟨[], 0, 0, 0⟩ rfl
    (by dsimp only; omega) (by intro r hr; omega) (by intro e he; simp at he)
    (by unfold jgetA; simp [prevKR])
  obtain ⟨hd, hb⟩ := hrows
  unfold flm
  simp only [Nat.sub_zero]
  rw [← hd]
  rw [extLeft_diag]
  dsimp only
  exact extRight_diag L L.length _ (by omega)

/-- The total matched size on two copies of the same string is its length. -/
theorem mbTotal_self (L : Str) :
    mbTotal L L (bIdx L) [(0, L.length, 0, L.length)] = L.length := by
  rw [mbTotal]
  rw [mbTotalF]
  rw [flm_diag]
  dsimp only
  by_cases h : L.length = 0
  · rw [if_pos h, mbTotalF_nil]
    omega
  · rw [if_neg h]
    rw [if_neg (by omega), if_neg (by omega)]
    simp only [List.append_nil, List.nil_append]
    rw [mbTotalF_nil]
    omega

/-- `ratio()` of a string with itself is exactly `1`. -/
theorem ratioQ_self (L : Str) : ratioQ L L = 1 := by
  unfold ratioQ calcRatio
  rw [mbTotal_self]
  by_cases h : L.length + L.length = 0
  · rw [if_pos h]
  · rw [if_neg h]
    have h0 : (L.length : ℚ) ≠ 0 := by
      have : L.length ≠ 0 := by omega
      exact_mod_cast this
    have hne : (L.length : ℚ) + L.length ≠ 0 := by
      intro hc
      apply h0
      linarith
    field_simp
    ring

/-- `similarity(a, a) = 1` for every string (`SequenceMatcher` returns `1.0`
for identical inputs, and for two empty inputs by convention). -/
theorem similarity_self (a : Str) : similarity a a = 1 := ratioQ_self (lowerS a)

/-- The total matched size is at most the total a-window width and at most
the total b-window width of the queue, at every step budget. -/
theorem mbTotalF_le (a b : Str) (bIdxF : Char → List Nat) :
    ∀ (f : Nat) (q : List (Nat × Nat × Nat × Nat)),
      mbTotalF a b bIdxF f q ≤ (q.map (fun r => r.2.1 - r.1)).sum ∧
      mbTotalF a b bIdxF f q ≤ (q.map (fun r => r.2.2.2 - r.2.2.1)).sum := by
  intro f
  induction f with
  | zero => intro q; rw [mbTotalF]; omega
  | succ g ih =>
    intro q
    cases q with
    | nil => rw [mbTotalF_nil]; omega
    | cons r rest =>
      obtain ⟨alo, ahi, blo, bhi⟩ := r
      rw [mbTotalF]
      by_cases hk : (flm a b bIdxF alo ahi blo bhi).2.2 = 0
      · rw [if_pos hk]
        have := ih rest
        simp only [List.map_cons, List.sum_cons]
        omega
      · rw [if_neg hk]
        have hb := flm_le a b bIdxF alo ahi blo bhi (by omega)
        by_cases h1 : (flm a b bIdxF alo ahi blo bhi).1 + (flm a b bIdxF alo ahi blo bhi).2.2 < ahi ∧
            (flm a b bIdxF alo ahi blo bhi).2.1 + (flm a b bIdxF alo ahi blo bhi).2.2 < bhi <;>
          by_cases h2 : alo < (flm a b bIdxF alo ahi blo bhi).1 ∧
            blo < (flm a b bIdxF alo ahi blo bhi).2.1
        · rw [if_pos h1, if_pos h2]
          have := ih ([((flm a b bIdxF alo ahi blo bhi).1 + (flm a b bIdxF alo ahi blo bhi).2.2, ahi,
              (flm a b bIdxF alo ahi blo bhi).2.1 + (flm a b bIdxF alo ahi blo bhi).2.2, bhi)] ++
            [(alo, (flm a b bIdxF alo ahi blo bhi).1, blo, (flm a b bIdxF alo ahi blo bhi).2.1)] ++ rest)
          simp only [List.map_append, List.sum_append, List.map_cons, List.sum_cons, List.map_nil,
            List.sum_nil] at this ⊢
          omega
        · rw [if_pos h1, if_neg h2]
          have := ih ([((flm a b bIdxF alo ahi blo bhi).1 + (flm a b bIdxF alo ahi blo bhi).2.2, ahi,
              (flm a b bIdxF alo ahi blo bhi).2.1 + (flm a b bIdxF alo ahi blo bhi).2.2, bhi)] ++
            [] ++ rest)
          simp only [List.map_append, List.sum_append, List.map_cons, List.sum_cons, List.map_nil,
            List.sum_nil, List.nil_append, List.append_nil] at this ⊢
          omega
        · rw [if_neg h1, if_pos h2]
          have := ih ([] ++ [(alo, (flm a b bIdxF alo ahi blo bhi).1, blo,
              (flm a b bIdxF alo ahi blo bhi).2.1)] ++ rest)
          simp only [List.map_append, List.sum_append, List.map_cons, List.sum_cons, List.map_nil,
            List.sum_nil, List.nil_append, List.append_nil] at this ⊢
          omega
        · rw [if_neg h1, if_neg h2]
          have := ih ([] ++ [] ++ rest)
          simp only [List.map_append, List.sum_append, List.map_cons, List.sum_cons, List.map_nil,
            List.sum_nil, List.nil_append, List.append_nil] at this ⊢
          omega

theorem mbTotal_le (a b : Str) (bIdxF : Char → List Nat) :
    ∀ q, mbTotal a b bIdxF q ≤ (q.map (fun r => r.2.1 - r.1)).sum ∧
      mbTotal a b bIdxF q ≤ (q.map (fun r => r.2.2.2 - r.2.2.1)).sum := by
  intro q
  exact mbTotalF_le a b bIdxF _ q

/-- `ratio()` is non-negative. -/
theorem ratioQ_nonneg (a b : Str) : 0 ≤ ratioQ a b := by
  unfold ratioQ calcRatio
  split
  · norm_num
  · apply div_nonneg <;> positivity

/-- `ratio()` is at most `1`: the matched total is bounded by each input's
length. -/
theorem ratioQ_le_one (a b : Str) : ratioQ a b ≤ 1 := by
  unfold ratioQ calcRatio
  split
  · exact le_refl 1
  · next h =>
    have hm := mbTotal_le a b (bIdx b) [(0, a.length, 0, b.length)]
    simp only [List.map_cons, List.map_nil, List.sum_cons, List.sum_nil, Nat.sub_zero,
      Nat.add_zero] at hm
    have hden : (0 : ℚ) < (a.length : ℚ) + (b.length : ℚ) := by
      have : 0 < a.length + b.length := Nat.pos_of_ne_zero h
      exact_mod_cast this
    rw [div_le_one hden]
    have : 2 * mbTotal a b (bIdx b) [(0, a.length, 0, b.length)] ≤ a.length + b.length := by
      omega
    exact_mod_cast this

/-- `similarity` lies in `[0, 1]`. -/
theorem similarity_nonneg (a b : Str) : 0 ≤ similarity a b := ratioQ_nonneg _ _

theorem similarity_le_one (a b : Str) : similarity a b ≤ 1 := ratioQ_le_one _ _

/-- `similarity` is insensitive to letter case: it only sees the lower-cased
arguments. -/
theorem similarity_lower_inv (a a' b b' : Str) (ha : lowerS a = lowerS a')
    (hb : lowerS b = lowerS b') : similarity a b = similarity a' b' := by
  unfold similarity
  rw [ha, hb]

/-! ## find_paragraph_by_text (`src/server.py` lines 88-114) -/

/-- The containment test of the anchor resolver:
`query.lower() in text.lower()`. -/
def fpContains (q txt : Str) : Bool := containsSub (lowerS q) (lowerS txt)

/-- The score a paragraph with stripped text `txt` receives:
`0.9 + 0.1 * similarity(query, text)` on containment, else the bare
similarity. -/
def fpScore (q txt : Str) : ℚ :=
  if fpContains q txt then 9/10 + (1/10) * similarity q txt
  else similarity q txt

/-- The scan loop of `find_paragraph_by_text`: paragraphs with empty
stripped text are skipped; a containing paragraph competes on
`score > best_score` alone; a non-containing one also needs
`score >= threshold`. -/
def fpLoop (q : Str) (θ : ℚ) :
    List Str → Nat → ℚ → Option (Nat × ℚ) → Option (Nat × ℚ)
  | [], _, _, best => best
  | t :: ts, idx, bestScore, best =>
    if stripS t = [] then fpLoop q θ ts (idx + 1) bestScore best
    else if fpContains q (stripS t) then
      if bestScore < 9/10 + (1/10) * similarity q (stripS t) then
        fpLoop q θ ts (idx + 1) (9/10 + (1/10) * similarity q (stripS t))
          (some (idx, 9/10 + (1/10) * similarity q (stripS t)))
      else fpLoop q θ ts (idx + 1) bestScore best
    else
      if bestScore < similarity q (stripS t) ∧ θ ≤ similarity q (stripS t) then
        fpLoop q θ ts (idx + 1) (similarity q (stripS t))
          (some (idx, similarity q (stripS t)))
      else fpLoop q θ ts (idx + 1) bestScore best

/-- `find_paragraph_by_text(doc, query, threshold)` over the texts of the
document's paragraphs; returns the `(index, score)` of the best match (the
matched paragraph itself is recoverable from the index). -/
def find_paragraph_by_text (texts : List Str) (q : Str) (θ : ℚ) : Option (Nat × ℚ) :=
  fpLoop q θ texts 0 0 none

/-- A paragraph text qualifies as a candidate: non-empty stripped text and
either containment or a similarity that clears the threshold. -/
def fpCand (q : Str) (θ : ℚ) (t : Str) : Prop :=
  stripS t ≠ [] ∧ (fpContains q (stripS t) = true ∨ θ ≤ similarity q (stripS t))

/-- Master invariant of the scan loop: any returned score is either the
incoming best (untouched) or strictly above the incoming bar; it dominates
every candidate of the remaining list; candidates strictly before the
returned index score strictly below it; and with no candidates the incoming
best is returned unchanged. -/
theorem fpLoop_master (q : Str) (θ : ℚ) :
    ∀ (ts : List Str) (idx : Nat) (bs : ℚ) (best : Option (Nat × ℚ)),
      (∀ i' s', best = some (i', s') → s' = bs) →
      (∀ i' s', best = some (i', s') → i' < idx) →
      ((∀ i s, fpLoop q θ ts idx bs best = some (i, s) →
          (fpLoop q θ ts idx bs best = best ∨ bs < s) ∧
          (∀ j t, ts.get? j = some t → fpCand q θ t → fpScore q (stripS t) ≤ s) ∧
          (∀ j t, ts.get? j = some t → fpCand q θ t → idx + j < i →
            fpScore q (stripS t) < s)) ∧
        ((∀ j t, ts.get? j = some t → ¬fpCand q θ t) →
          fpLoop q θ ts idx bs best = best)) := by
  intro ts
  induction ts with
  | nil =>
    intro idx bs best h1 h2
    constructor
    · intro i s hr
      rw [fpLoop] at hr ⊢
      refine ⟨Or.inl rfl, ?_, ?_⟩ <;> intro j t hj <;> simp at hj
    · intro _
      rw [fpLoop]
  | cons t ts ih =>
    intro idx bs best h1 h2
    by_cases he : stripS t = []
    · -- empty stripped text: skipped entirely
      have heq : fpLoop q θ (t :: ts) idx bs best = fpLoop q θ ts (idx + 1) bs best := by
        rw [fpLoop, if_pos he]
      have IH := ih (idx + 1) bs best h1 (fun i' s' h => by have := h2 i' s' h; omega)
      rw [heq]
      constructor
      · intro i s hr
        have hI := IH.1 i s hr
        refine ⟨hI.1, ?_, ?_⟩
        · intro j t' hj hc
          cases j with
          | zero =>
            simp only [List.get?_cons_zero, Option.some.injEq] at hj
            subst hj
            exact absurd he hc.1.elim
          | succ m =>
            simp only [List.get?_cons_succ] at hj
            exact hI.2.1 m t' hj hc
        · intro j t' hj hc hlt
          cases j with
          | zero =>
            simp only [List.get?_cons_zero, Option.some.injEq] at hj
            subst hj
            exact absurd he hc.1.elim
          | succ m =>
            simp only [List.get?_cons_succ] at hj
            exact hI.2.2 m t' hj hc (by omega)
      · intro hnone
        exact IH.2 (fun j t' hj => hnone (j + 1) t' (by simpa using hj))
    · by_cases hco : fpContains q (stripS t) = true
      · -- containment tier
        by_cases hup : bs < 9/10 + (1/10) * similarity q (stripS t)
        · have heq : fpLoop q θ (t :: ts) idx bs best =
              fpLoop q θ ts (idx + 1) (9/10 + (1/10) * similarity q (stripS t))
                (some (idx, 9/10 + (1/10) * similarity q (stripS t))) := by
            rw [fpLoop, if_neg he, if_pos hco, if_pos hup]
          have IH := ih (idx + 1) (9/10 + (1/10) * similarity q (stripS t))
            (some (idx, 9/10 + (1/10) * similarity q (stripS t)))
            (by intro i' s' h; cases h; rfl)
            (by intro i' s' h; cases h; omega)
          rw [heq]
          have hsc : fpScore q (stripS t) = 9/10 + (1/10) * similarity q (stripS t) := by
            unfold fpScore
            rw [if_pos hco]
          constructor
          · intro i s hr
            have hI := IH.1 i s hr
            constructor
            · right
              rcases hI.1 with hsame | hlt
              · rw [hsame] at hr
                cases hr
                exact hup
              · exact lt_trans hup hlt
            · constructor
              · intro j t' hj hc
                cases j with
                | zero =>
                  simp only [List.get?_cons_zero, Option.some.injEq] at hj
                  subst hj
                  rw [hsc]
                  rcases hI.1 with hsame | hlt
                  · rw [hsame] at hr
                    cases hr
                    exact le_refl _
                  · exact le_of_lt hlt
                | succ m =>
                  simp only [List.get?_cons_succ] at hj
                  exact hI.2.1 m t' hj hc
              · intro j t' hj hc hlt
                cases j with
                | zero =>
                  simp only [List.get?_cons_zero, Option.some.injEq] at hj
                  subst hj
                  rw [hsc]
                  rcases hI.1 with hsame | hlt'
                  · rw [hsame] at hr
                    cases hr
                    omega
                  · exact hlt'
                | succ m =>
                  simp only [List.get?_cons_succ] at hj
                  exact hI.2.2 m t' hj hc (by omega)
          · intro hnone
            exact absurd ⟨he, Or.inl hco⟩ (hnone 0 t rfl)
        · have heq : fpLoop q θ (t :: ts) idx bs best = fpLoop q θ ts (idx + 1) bs best := by
            rw [fpLoop, if_neg he, if_pos hco, if_neg hup]
          have IH := ih (idx + 1) bs best h1 (fun i' s' h => by have := h2 i' s' h; omega)
          rw [heq]
          have hsc : fpScore q (stripS t) = 9/10 + (1/10) * similarity q (stripS t) := by
            unfold fpScore
            rw [if_pos hco]
          constructor
          · intro i s hr
            have hI := IH.1 i s hr
            have hbs : bs ≤ s := by
              rcases hI.1 with hsame | hlt
              · rw [hsame] at hr
                have := h1 i s hr
                linarith [le_of_eq this]
              · linarith
            refine ⟨hI.1, ?_, ?_⟩
            · intro j t' hj hc
              cases j with
              | zero =>
                simp only [List.get?_cons_zero, Option.some.injEq] at hj
                subst hj
                rw [hsc]
                push_neg at hup
                linarith
              | succ m =>
                simp only [List.get?_cons_succ] at hj
                exact hI.2.1 m t' hj hc
            · intro j t' hj hc hlt
              cases j with
              | zero =>
                simp only [List.get?_cons_zero, Option.some.injEq] at hj
                subst hj
                rw [hsc]
                push_neg at hup
                -- the result index lies past `idx`, so it came from a strict update
                rcases hI.1 with hsame | hlt'
                · rw [hsame] at hr
                  exact absurd (h2 i s hr) (by omega)
                · linarith
              | succ m =>
                simp only [List.get?_cons_succ] at hj
                exact hI.2.2 m t' hj hc (by omega)
          · intro hnone
            exact absurd ⟨he, Or.inl hco⟩ (hnone 0 t rfl)
      · -- fuzzy tier
        by_cases hup : bs < similarity q (stripS t) ∧ θ ≤ similarity q (stripS t)
        · have heq : fpLoop q θ (t :: ts) idx bs best =
              fpLoop q θ ts (idx + 1) (similarity q (stripS t))
                (some (idx, similarity q (stripS t))) := by
            rw [fpLoop, if_neg he, if_neg hco, if_pos hup]
          have IH := ih (idx + 1) (similarity q (stripS t))
            (some (idx, similarity q (stripS t)))
            (by intro i' s' h; cases h; rfl)
            (by intro i' s' h; cases h; omega)
          rw [heq]
          have hsc : fpScore q (stripS t) = similarity q (stripS t) := by
            unfold fpScore
            rw [if_neg hco]
          constructor
          · intro i s hr
            have hI := IH.1 i s hr
            constructor
            · right
              rcases hI.1 with hsame | hlt
              · rw [hsame] at hr
                cases hr
                exact hup.1
              · exact lt_trans hup.1 hlt
            · constructor
              · intro j t' hj hc
                cases j with
                | zero =>
                  simp only [List.get?_cons_zero, Option.some.injEq] at hj
                  subst hj
                  rw [hsc]
                  rcases hI.1 with hsame | hlt
                  · rw [hsame] at hr
                    cases hr
                    exact le_refl _
                  · exact le_of_lt hlt
                | succ m =>
                  simp only [List.get?_cons_succ] at hj
                  exact hI.2.1 m t' hj hc
              · intro j t' hj hc hlt
                cases j with
                | zero =>
                  simp only [List.get?_cons_zero, Option.some.injEq] at hj
                  subst hj
                  rw [hsc]
                  rcases hI.1 with hsame | hlt'
                  · rw [hsame] at hr
                    cases hr
                    omega
                  · exact hlt'
                | succ m =>
                  simp only [List.get?_cons_succ] at hj
                  exact hI.2.2 m t' hj hc (by omega)
          · intro hnone
            exact absurd ⟨he, Or.inr hup.2⟩ (hnone 0 t rfl)
        · have heq : fpLoop q θ (t :: ts) idx bs best = fpLoop q θ ts (idx + 1) bs best := by
            rw [fpLoop, if_neg he, if_neg hco, if_neg hup]
          have IH := ih (idx + 1) bs best h1 (fun i' s' h => by have := h2 i' s' h; omega)
          rw [heq]
          have hsc : fpScore q (stripS t) = similarity q (stripS t) := by
            unfold fpScore
            rw [if_neg hco]
          constructor
          · intro i s hr
            have hI := IH.1 i s hr
            refine ⟨hI.1, ?_, ?_⟩
            · intro j t' hj hc
              cases j with
              | zero =>
                simp only [List.get?_cons_zero, Option.some.injEq] at hj
                subst hj
                rw [hsc]
                rcases hc.2 with hc2 | hc2
                · exact absurd hc2 hco
                · push_neg at hup
                  have hsb : similarity q (stripS t) ≤ bs := by
                    by_contra hcon
                    push_neg at hcon
                    exact absurd hc2 (not_le.mpr (hup hcon))
                  rcases hI.1 with hsame | hlt
                  · rw [hsame] at hr
                    have := h1 i s hr
                    linarith [le_of_eq this]
                  · linarith
              | succ m =>
                simp only [List.get?_cons_succ] at hj
                exact hI.2.1 m t' hj hc
            · intro j t' hj hc hlt
              cases j with
              | zero =>
                simp only [List.get?_cons_zero, Option.some.injEq] at hj
                subst hj
                rw [hsc]
                rcases hc.2 with hc2 | hc2
                · exact absurd hc2 hco
                · push_neg at hup
                  have hsb : similarity q (stripS t) ≤ bs := by
                    by_contra hcon
                    push_neg at hcon
                    exact absurd hc2 (not_le.mpr (hup hcon))
                  rcases hI.1 with hsame | hlt'
                  · rw [hsame] at hr
                    exact absurd (h2 i s hr) (by omega)
                  · linarith
              | succ m =>
                simp only [List.get?_cons_succ] at hj
                exact hI.2.2 m t' hj hc (by omega)
          · intro hnone
            refine IH.2 (fun j t' hj => hnone (j + 1) t' (by simpa using hj))

/-- Provenance of the scan loop's result: it is either the incoming best or
a paragraph of the remaining list with non-empty stripped text, carrying its
tier score, with the threshold check enforced on the fuzzy tier. -/
theorem fpLoop_src (q : Str) (θ : ℚ) :
    ∀ (ts : List Str) (idx : Nat) (bs : ℚ) (best : Option (Nat × ℚ)) (i : Nat) (s : ℚ),
      fpLoop q θ ts idx bs best = some (i, s) →
      best = some (i, s) ∨
        ∃ k t, ts.get? k = some t ∧ i = idx + k ∧ stripS t ≠ [] ∧
          s = fpScore q (stripS t) ∧
          (fpContains q (stripS t) = false → θ ≤ s) := by
  intro ts
  induction ts with
  | nil =>
    intro idx bs best i s hr
    rw [fpLoop] at hr
    exact Or.inl hr
  | cons t ts ih =>
    intro idx bs best i s hr
    have shift : (∃ k t', ts.get? k = some t' ∧ i = (idx + 1) + k ∧ stripS t' ≠ [] ∧
        s = fpScore q (stripS t') ∧ (fpContains q (stripS t') = false → θ ≤ s)) →
        ∃ k t', (t :: ts).get? k = some t' ∧ i = idx + k ∧ stripS t' ≠ [] ∧
          s = fpScore q (stripS t') ∧ (fpContains q (stripS t') = false → θ ≤ s) := by
      rintro ⟨k, t', h1, h2, h3, h4, h5⟩
      exact ⟨k + 1, t', by simpa using h1, by omega, h3, h4, h5⟩
    by_cases he : stripS t = []
    · rw [fpLoop, if_pos he] at hr
      rcases ih (idx + 1) bs best i s hr with h | h
      · exact Or.inl h
      · exact Or.inr (shift h)
    · by_cases hco : fpContains q (stripS t) = true
      · by_cases hup : bs < 9/10 + (1/10) * similarity q (stripS t)
        · rw [fpLoop, if_neg he, if_pos hco, if_pos hup] at hr
          rcases ih (idx + 1) _ _ i s hr with h | h
          · cases h
            right
            refine ⟨0, t, rfl, by omega, he, ?_, ?_⟩
            · unfold fpScore
              rw [if_pos hco]
            · intro hcf
              rw [hcf] at hco
              cases hco
          · exact Or.inr (shift h)
        · rw [fpLoop, if_neg he, if_pos hco, if_neg hup] at hr
          rcases ih (idx + 1) bs best i s hr with h | h
          · exact Or.inl h
          · exact Or.inr (shift h)
      · by_cases hup : bs < similarity q (stripS t) ∧ θ ≤ similarity q (stripS t)
        · rw [fpLoop, if_neg he, if_neg hco, if_pos hup] at hr
          rcases ih (idx + 1) _ _ i s hr with h | h
          · cases h
            right
            refine ⟨0, t, rfl, by omega, he, ?_, ?_⟩
            · unfold fpScore
              rw [if_neg hco]
            · intro _
              exact hup.2
          · exact Or.inr (shift h)
        · rw [fpLoop, if_neg he, if_neg hco, if_neg hup] at hr
          rcases ih (idx + 1) bs best i s hr with h | h
          · exact Or.inl h
          · exact Or.inr (shift h)

/-! ## Document model

Paragraphs are runs with character formatting; a table cell is modelled by
its text (python-docx `cell.text`; its setter replaces the whole cell
content with one paragraph).  The body is an ordered block stream;
`doc.paragraphs` / `doc.tables` are its projections in order. -/

/-- A run (`python-docx` `Run`): a text fragment with the character
attributes the modelled operations touch. -/
structure Run where
  text : Str
  bold : Option Bool := none
  italic : Option Bool := none
  underline : Option Bool := none
  size : Option Nat := none
deriving DecidableEq, Repr

/-- Paragraph alignments reachable through `apply_paragraph_formatting`. -/
inductive Alignment where
  | left
  | center
  | right
  | justify
deriving DecidableEq, Repr

/-- A paragraph: its runs plus paragraph-level attributes. -/
structure Para where
  runs : List Run
  style : Option Str := none
  align : Option Alignment := none
deriving DecidableEq, Repr

/-- Derived paragraph text (`Paragraph.text`): run texts concatenated. -/
def paraText (p : Para) : Str := (p.runs.map Run.text).join

/-- A table: rows of cell texts. -/
abbrev Tbl := List (List Str)

/-- A top-level body block. -/
inductive Block where
  | par (p : Para)
  | tbl (t : Tbl)
deriving DecidableEq, Repr

/-- The document body. -/
structure Doc where
  blocks : List Block
deriving DecidableEq, Repr

/-- `doc.paragraphs`: body paragraphs in order (table content excluded). -/
def Doc.paras (d : Doc) : List Para :=
  d.blocks.filterMap (fun b => match b with | .par p => some p | .tbl _ => none)

/-- `doc.tables`: body tables in order. -/
def Doc.tbls (d : Doc) : List Tbl :=
  d.blocks.filterMap (fun b => match b with | .par _ => none | .tbl t => some t)

/-- The texts of `doc.paragraphs`. -/
def Doc.paraTexts (d : Doc) : List Str := d.paras.map paraText

/-- Block position of the `n`-th paragraph of the body. -/
def blockIdxOfPara : List Block → Nat → Nat
  | [], _ => 0
  | .par _ :: _, 0 => 0
  | .par _ :: bs, n + 1 => blockIdxOfPara bs n + 1
  | .tbl _ :: bs, n => blockIdxOfPara bs n + 1

/-- Block position of the `n`-th table of the body. -/
def blockIdxOfTbl : List Block → Nat → Nat
  | [], _ => 0
  | .tbl _ :: _, 0 => 0
  | .tbl _ :: bs, n + 1 => blockIdxOfTbl bs n + 1
  | .par _ :: bs, n => blockIdxOfTbl bs n + 1

/-! ## replace_text_in_paragraph (`src/server.py` lines 152-181) -/

/-- The per-run scan: a direct substring replace in the first run whose text
contains the literal whole; `none` when no single run contains it. -/
def rtipRuns (old new : Str) : List Run → Option (List Run)
  | [] => none
  | r :: rs =>
    if containsSub old r.text then
      some ({ r with text := replaceAll old new r.text } :: rs)
    else
      match rtipRuns old new rs with
      | some rs' => some (r :: rs')
      | none => none

/-- `replace_text_in_paragraph(paragraph, old_text, new_text)`: try the
single-run replace first; otherwise blank every run and write the whole
replaced text into the first run (creating one if the paragraph had none).
Returns the paragraph and whether a replacement was made. -/
def replace_text_in_paragraph (p : Para) (old new : Str) : Para × Bool :=
  if containsSub old (paraText p) then
    match rtipRuns old new p.runs with
    | some rs => ({ p with runs := rs }, true)
    | none =>
      match p.runs with
      | [] => ({ p with runs := [{ text := replaceAll old new (paraText p) }] }, true)
      | r0 :: rest =>
        ({ p with runs := { r0 with text := replaceAll old new (paraText p) } ::
            rest.map (fun r => { r with text := [] }) }, true)
  else (p, false)

/-! ## replace_placeholder / replace_placeholders
(`src/server.py` lines 824-907) -/

/-- Paragraph pass of `replace_placeholder`: a paragraph containing the
literal is rewritten and counted once. -/
def rpPara (ph v : Str) (p : Para) : Para × Nat :=
  if containsSub ph (paraText p) then
    ((replace_text_in_paragraph p ph v).1,
      if (replace_text_in_paragraph p ph v).2 then 1 else 0)
  else (p, 0)

/-- Cell pass: a containing cell's whole text is substring-replaced and
counted once. -/
def rpCell (ph v : Str) (c : Str) : Str × Nat :=
  if containsSub ph c then (replaceAll ph v c, 1) else (c, 0)

def rpRow (ph v : Str) : List Str → List Str × Nat
  | [] => ([], 0)
  | c :: cs =>
    let r := rpCell ph v c
    let rest := rpRow ph v cs
    (r.1 :: rest.1, r.2 + rest.2)

def rpTbl (ph v : Str) : Tbl → Tbl × Nat
  | [] => ([], 0)
  | row :: rows =>
    let r := rpRow ph v row
    let rest := rpTbl ph v rows
    (r.1 :: rest.1, r.2 + rest.2)

/-- One whole-document substitution pass: every body paragraph, then every
table cell.  (The source iterates paragraphs first, then tables; the two
passes touch disjoint parts of the body, so one block sweep computes the
same document and total.) -/
def rpBlocks (ph v : Str) : List Block → List Block × Nat
  | [] => ([], 0)
  | .par p :: bs =>
    let r := rpPara ph v p
    let rest := rpBlocks ph v bs
    (.par r.1 :: rest.1, r.2 + rest.2)
  | .tbl t :: bs =>
    let r := rpTbl ph v t
    let rest := rpBlocks ph v bs
    (.tbl r.1 :: rest.1, r.2 + rest.2)

def rpDoc (ph v : Str) (d : Doc) : Doc × Nat :=
  (⟨(rpBlocks ph v d.blocks).1⟩, (rpBlocks ph v d.blocks).2)

/-- `replace_placeholder(placeholder, value)`: zero matches is reported as
an `error` result with the document left unsaved; otherwise the rewritten
document is saved and the count returned.  The result triple is
`(persisted document, error field, replacements count)`. -/
def replace_placeholder (d : Doc) (ph v : Str) : Doc × Option Str × Nat :=
  let r := rpDoc ph v d
  if r.2 = 0 then
    (d, some ("Placeholder '".toList ++ ph ++ "' was not found in the document.".toList), 0)
  else (r.1, none, r.2)

/-- `replace_placeholders(replacements)`: apply the single-literal pass once
per mapping entry in mapping order, accumulating per-literal counts; always
saves and reports `status: success`.  The result is
`(persisted document, error field, total count, per-literal details)`. -/
def replace_placeholders (d : Doc) (m : List (Str × Str)) :
    Doc × Option Str × Nat × List (Str × Nat) :=
  match m with
  | [] => (d, none, 0, [])
  | (ph, v) :: rest =>
    let r := rpDoc ph v d
    let after := replace_placeholders r.1 rest
    (after.1, none, r.2 + after.2.2.1, (ph, r.2) :: after.2.2.2)

/-! ## search / fetch (`src/server.py` lines 406-471) -/

/-- Decimal digits of a natural number (`f"para-{idx}"`), with fuel: each
step divides `n` by 10, so `n + 1` units of fuel always suffice and the
fuel-0 case is unreachable from `natToStr`. -/
def natToStrF : Nat → Nat → Str
  | 0, _ => []
  | f + 1, n =>
    if n < 10 then [Char.ofNat (48 + n)]
    else natToStrF f (n / 10) ++ [Char.ofNat (48 + n % 10)]

def natToStr (n : Nat) : Str := natToStrF (n + 1) n

/-- Value of a decimal digit character. -/
def digVal (c : Char) : Option Nat :=
  if '0' ≤ c ∧ c ≤ '9' then some (c.toNat - 48) else none

def parseDigitsAux : Str → Nat → Option Nat
  | [], acc => some acc
  | c :: cs, acc =>
    match digVal c with
    | some dv => parseDigitsAux cs (acc * 10 + dv)
    | none => none

/-- Parse a non-empty all-digit string. -/
def parseDigits : Str → Option Nat
  | [] => none
  | c :: cs => parseDigitsAux (c :: cs) 0

/-- Python `int(s)` restricted to an optional minus sign and digits (the
forms the id round-trip produces; surrounding whitespace, `+` and `_`
grouping are not modelled). -/
def parseIntPy (s : Str) : Option Int :=
  match s with
  | '-' :: rest => (parseDigits rest).map (fun n => -(n : Int))
  | _ => (parseDigits s).map (fun n => (n : Int))

/-- A hit returned by the `search` tool.  The display rounding
`round(score, 2)` is a float-formatting step and is not modelled; the claims
under study concern the ids. -/
structure SearchHit where
  id : Str
  score : ℚ
  text : Str
deriving DecidableEq, Repr

/-- `text[:200] + "..."` truncation used by `search`. -/
def truncAt (n : Nat) (t : Str) : Str :=
  if n < t.length then t.take n ++ "...".toList else t

/-- The collection loop of `search`: enumerate `doc.paragraphs`, skip empty
stripped text, score containment at a flat `0.9` and otherwise by
similarity, and keep scores `>= 0.3`.  Ids use the enumeration index. -/
def searchCollect (q : Str) : List Para → Nat → List SearchHit
  | [], _ => []
  | p :: ps, idx =>
    if stripS (paraText p) = [] then searchCollect q ps (idx + 1)
    else
      if containsSub (lowerS q) (lowerS (stripS (paraText p))) then
        if (3 : ℚ)/10 ≤ 9/10 then
          { id := "para-".toList ++ natToStr idx, score := 9/10,
            text := truncAt 200 (stripS (paraText p)) } :: searchCollect q ps (idx + 1)
        else searchCollect q ps (idx + 1)
      else
        if (3 : ℚ)/10 ≤ similarity q (stripS (paraText p)) then
          { id := "para-".toList ++ natToStr idx, score := similarity q (stripS (paraText p)),
            text := truncAt 200 (stripS (paraText p)) } :: searchCollect q ps (idx + 1)
        else searchCollect q ps (idx + 1)

/-- Stable insertion for a score-descending sort: the new element goes
before the first element whose score is `≤` its own, so an earlier element
stays before later equal-scored ones. -/
def insDesc (h : SearchHit) : List SearchHit → List SearchHit
  | [] => [h]
  | x :: xs => if x.score ≤ h.score then h :: x :: xs else x :: insDesc h xs

/-- Insertion sort by score descending.  Python's `sorted(..., reverse=True)`
is a stable sort, and the output of a stable sort is uniquely determined, so
this insertion sort computes the same list. -/
def sortDesc : List SearchHit → List SearchHit
  | [] => []
  | x :: xs => insDesc x (sortDesc xs)

/-- `search(query)`: collect, sort by score descending (Python's stable
sort), return the top 10. -/
def search (d : Doc) (q : Str) : List SearchHit :=
  (sortDesc (searchCollect q d.paras 0)).take 10

/-- The result of `fetch`. -/
structure FetchRes where
  error : Option Str := none
  idx : Option Nat := none
  text : Option Str := none
deriving DecidableEq, Repr

/-- The default paragraph used for modelled out-of-range reads (they only
occur behind bounds checks). -/
def defPara : Para := { runs := [] }

/-- `fetch(id)`: check the `para-` prefix, strip every occurrence of
`para-` (Python `str.replace`), parse the index, bounds-check against all
body paragraphs. -/
def fetch (d : Doc) (id : Str) : FetchRes :=
  if ¬ ("para-".toList.isPrefixOf id) then
    { error := some ("Invalid ID format: ".toList ++ id ++ ". Expected 'para-N'".toList) }
  else
    match parseIntPy (replaceAll ("para-".toList) [] id) with
    | none => { error := some ("Invalid ID format: ".toList ++ id) }
    | some z =>
      if z < 0 ∨ (d.paras.length : Int) ≤ z then
        { error := some ("Paragraph ".toList ++ id ++ " not found".toList) }
      else
        { idx := some z.toNat, text := some (paraText (d.paras.getD z.toNat defPara)) }

/-! ## apply_paragraph_formatting and the insert/delete/move/merge/split
tools (`src/server.py` lines 236-274, 669-722, 1433-1567, 2654-2718) -/

/-- The `alignment_map` lookup. -/
def alignOfStr (s : Str) : Option Alignment :=
  if lowerS s = "left".toList then some .left
  else if lowerS s = "center".toList then some .center
  else if lowerS s = "right".toList then some .right
  else if lowerS s = "justify".toList then some .justify
  else none

/-- `apply_paragraph_formatting`: bold/italic forced onto every run,
alignment set when recognised, style applied best-effort (an unknown style
name is swallowed; validity is the collaborator's `styleOk`). -/
def apply_paragraph_formatting (styleOk : Str → Bool) (p : Para)
    (bold italic : Bool) (alignment style : Option Str) : Para :=
  let p1 :=
    if bold || italic then
      { p with runs := p.runs.map (fun r =>
          { r with bold := if bold then some true else r.bold,
                   italic := if italic then some true else r.italic }) }
    else p
  let p2 :=
    match alignment with
    | none => p1
    | some al =>
      match alignOfStr al with
      | some a => { p1 with align := some a }
      | none => p1
  match style with
  | none => p2
  | some st => if styleOk st then { p2 with style := some st } else p2

/-- `doc.add_paragraph(text)`: one run holding the text (none when the text
is empty). -/
def mkParagraph (text : Str) : Para :=
  { runs := if text = [] then [] else [{ text := text }] }

/-- `insert_after_text(query, text, ...)`: resolve the anchor; on success
the new paragraph is appended by `add_paragraph` and immediately moved by
`addnext` directly after the anchor's body element — the net effect is the
splice modelled here.  Returns
`(persisted document, error field, resolved anchor match)`. -/
def insert_after_text (styleOk : Str → Bool) (d : Doc) (q text : Str) (θ : ℚ)
    (bold italic : Bool) (alignment style : Option Str) :
    Doc × Option Str × Option (Nat × ℚ) :=
  match find_paragraph_by_text d.paraTexts q θ with
  | none =>
    (d, some ("No paragraph found matching: '".toList ++ q ++ "'".toList), none)
  | some (idx, score) =>
    let newP := apply_paragraph_formatting styleOk (mkParagraph text) bold italic alignment style
    let bp := blockIdxOfPara d.blocks idx
    (⟨d.blocks.take (bp + 1) ++ [.par newP] ++ d.blocks.drop (bp + 1)⟩, none, some (idx, score))

/-- `delete_paragraph(query)`. -/
def delete_paragraph (d : Doc) (q : Str) (θ : ℚ) : Doc × Option Str :=
  match find_paragraph_by_text d.paraTexts q θ with
  | none => (d, some ("No paragraph found matching: '".toList ++ q ++ "'".toList))
  | some (idx, _) =>
    (⟨d.blocks.eraseIdx (blockIdxOfPara d.blocks idx)⟩, none)

/-- `move_paragraph(query, target_query, position)`: both anchors must
resolve and differ; detach the source element and re-attach before/after
the target element. -/
def move_paragraph (d : Doc) (q tq pos : Str) (θ : ℚ) : Doc × Option Str :=
  match find_paragraph_by_text d.paraTexts q θ with
  | none => (d, some ("No paragraph found matching source: '".toList ++ q ++ "'".toList))
  | some (si, _) =>
    match find_paragraph_by_text d.paraTexts tq θ with
    | none => (d, some ("No paragraph found matching target: '".toList ++ tq ++ "'".toList))
    | some (ti, _) =>
      if si = ti then (d, some ("Source and target paragraphs are the same".toList))
      else
        let bsrc := blockIdxOfPara d.blocks si
        let bt := blockIdxOfPara d.blocks ti
        let blk := d.blocks.getD bsrc (.par defPara)
        let rest := d.blocks.eraseIdx bsrc
        let bt' := if bsrc < bt then bt - 1 else bt
        if lowerS pos = "before".toList then
          (⟨rest.take bt' ++ [blk] ++ rest.drop bt'⟩, none)
        else
          (⟨rest.take (bt' + 1) ++ [blk] ++ rest.drop (bt' + 1)⟩, none)

/-- Append text to the last run of a paragraph (`para1.runs[-1].text +=
separator + para2_text`), or add a run when there is none. -/
def appendToLastRun (p : Para) (tail : Str) : Para :=
  match p.runs with
  | [] => { p with runs := [{ text := tail }] }
  | _ :: _ =>
    { p with runs := p.runs.dropLast ++
        [{ p.runs.getLastD { text := [] } with
            text := (p.runs.getLastD { text := [] }).text ++ tail }] }

/-- `merge_paragraphs(query1, query2, separator)`. -/
def merge_paragraphs (d : Doc) (q1 q2 sep : Str) (θ : ℚ) : Doc × Option Str :=
  match find_paragraph_by_text d.paraTexts q1 θ with
  | none => (d, some ("No paragraph found matching: '".toList ++ q1 ++ "'".toList))
  | some (i1, _) =>
    match find_paragraph_by_text d.paraTexts q2 θ with
    | none => (d, some ("No paragraph found matching: '".toList ++ q2 ++ "'".toList))
    | some (i2, _) =>
      if i1 = i2 then (d, some ("Both queries match the same paragraph".toList))
      else
        let p1 := d.paras.getD i1 defPara
        let p2 := d.paras.getD i2 defPara
        let b1 := blockIdxOfPara d.blocks i1
        let b2 := blockIdxOfPara d.blocks i2
        let blocks1 := d.blocks.set b1 (.par (appendToLastRun p1 (sep ++ paraText p2)))
        (⟨blocks1.eraseIdx b2⟩, none)

/-- Blank every run and write `t` into the first (creating a run when the
paragraph had none) — the split tool's way of setting the kept text. -/
def setParaText (p : Para) (t : Str) : Para :=
  match p.runs with
  | [] => { p with runs := [{ text := t }] }
  | r0 :: rest =>
    { p with runs := { r0 with text := t } :: rest.map (fun r => { r with text := [] }) }

/-- `split_paragraph(query, split_at)`: divide at the end of the first
occurrence; the original keeps the head (including `split_at`), a new
paragraph with copied style holds the left-stripped remainder, spliced
immediately after; empty remainders are errors. -/
def split_paragraph (d : Doc) (q spl : Str) (θ : ℚ) : Doc × Option Str :=
  match find_paragraph_by_text d.paraTexts q θ with
  | none => (d, some ("No paragraph found matching: '".toList ++ q ++ "'".toList))
  | some (idx, _) =>
    let p := d.paras.getD idx defPara
    match splitFirst spl (paraText p) with
    | none => (d, some ("Split text '".toList ++ spl ++ "' not found in the paragraph.".toList))
    | some (pre, suf) =>
      if lstripS suf = [] then
        (d, some ("Nothing to split - the split point is at the end of the paragraph.".toList))
      else
        let p' := setParaText p (pre ++ spl)
        let newP : Para := { runs := [{ text := lstripS suf }], style := p.style }
        let bp := blockIdxOfPara d.blocks idx
        (⟨(d.blocks.set bp (.par p')).take (bp + 1) ++ [.par newP] ++
            (d.blocks.set bp (.par p')).drop (bp + 1)⟩, none)

/-! ## Table tools (`src/server.py` lines 184-233, 276-315, 915-976,
1135-1167) -/

/-- Grid column count (python-docx tables are rectangular; row 0's width is
the `len(table.columns)` of the tables this model builds). -/
def tblCols (t : Tbl) : Nat := (t.getD 0 []).length

/-- `update_table_cell(table_index, row, column, text)`; indices arrive as
Python ints and may be negative. -/
def update_table_cell (d : Doc) (ti r c : Int) (text : Str) : Doc × Option Str :=
  if ti < 0 ∨ (d.tbls.length : Int) ≤ ti then
    (d, some ("Table index not found.".toList))
  else
    let t := d.tbls.getD ti.toNat []
    if r < 0 ∨ (t.length : Int) ≤ r then
      (d, some ("Row index out of range.".toList))
    else if c < 0 ∨ (tblCols t : Int) ≤ c then
      (d, some ("Column index out of range.".toList))
    else
      let bt := blockIdxOfTbl d.blocks ti.toNat
      let t' := t.set r.toNat ((t.getD r.toNat []).set c.toNat text)
      (⟨d.blocks.set bt (.tbl t')⟩, none)

/-! ## detect_table_format (`src/server.py` lines 184-233) -/

/-- Preprocessing: strip the text, split into lines, strip each, drop blank
lines. -/
def preLines (t : Str) : List Str :=
  ((splitOnCh '\n' (stripS t)).map stripS).filter (fun l => ¬ l.isEmpty)

/-- The separator-line skip: the regex `^\s*\|[\s\-:|]+\|\s*$` combined
with the `content`-emptiness re-check.  On an already-stripped line the two
together hold exactly when the line is `|...|` of length ≥ 3 made only of
`|`, `-`, `:` and plain spaces (another whitespace character passes the
regex but survives the `content` check, so such a line is not skipped). -/
def isSepLine (l : Str) : Bool :=
  3 ≤ l.length ∧ l.headD ' ' = '|' ∧ l.getLastD ' ' = '|' ∧
    l.all (fun c => c = '|' ∨ c = '-' ∨ c = ':' ∨ c = ' ')

/-- `line.split('|')[1:-1]`, cells stripped. -/
def mdCells (l : Str) : List Str := (((splitOnCh '|' l).drop 1).dropLast).map stripS

/-- The cell-level separator signature `^[\s\-:]+$` on a non-empty cell. -/
def isDashCell (c : Str) : Bool :=
  ¬ c.isEmpty ∧ c.all (fun ch => isWS ch ∨ ch = '-' ∨ ch = ':')

/-- A markdown line contributes a row iff it is not a separator line, not
every non-empty parsed cell is a dash signature, and it has cells at all. -/
def mdKeep (l : Str) : Bool :=
  ¬ isSepLine l ∧
    ¬ (mdCells l).all (fun c => c.isEmpty || isDashCell c) ∧
    ¬ (mdCells l).isEmpty

/-- The rows the markdown path accumulates. -/
def mdRows (lines : List Str) : List (List Str) :=
  (lines.filter mdKeep).map mdCells

/-- The rows the tab path collects: every line containing a tab, split on
tabs with stripped cells. -/
def tabRows (lines : List Str) : List (List Str) :=
  (lines.filter (fun l => l.contains '\t')).map
    (fun l => (splitOnCh '\t' l).map stripS)

/-- The tab acceptance test: at least two collected rows and a spread of at
most one between the widest and narrowest row. -/
def tabOk (rows : List (List Str)) : Bool :=
  match rows.map List.length with
  | [] => false
  | c :: cs => 2 ≤ rows.length ∧ (cs.foldl max c) - (cs.foldl min c) ≤ 1

/-- Detected formats. -/
inductive TFmt where
  | markdown
  | tab
  | nofmt
deriving DecidableEq, Repr

/-- The tab-path tail of the detector (also reached when the markdown path
triggered but produced no rows). -/
def tabDetect (lines : List Str) : TFmt × List (List Str) :=
  if tabOk (tabRows lines) then (.tab, tabRows lines) else (.nofmt, [])

/-- `detect_table_format(text)`. -/
def detect_table_format (t : Str) : TFmt × List (List Str) :=
  let lines := preLines t
  if lines.isEmpty then (.nofmt, [])
  else if (lines.headD []).headD ' ' = '|' ∧ (lines.headD []).getLastD ' ' = '|' then
    if 1 ≤ (mdRows lines).length then (.markdown, mdRows lines)
    else tabDetect lines
  else tabDetect lines

/-- `create_word_table(doc, table_data, has_header)`: `None` on an empty
grid or an empty first row; otherwise a `len(table_data) × max-row-width`
grid, ragged short rows leaving trailing cells blank.  (The header-row
bolding only touches run formatting, which cell texts do not carry.) -/
def create_word_table (data : List (List Str)) : Option Tbl :=
  if data.isEmpty ∨ (data.headD []).isEmpty then none
  else
    let cols := (data.map List.length).foldl max 0
    some (data.map (fun row => (List.range cols).map (fun j => row.getD j [])))

/-- `insert_table(text, has_header, query)`: detect, optionally resolve the
anchor, build the table; with an anchor the spliced order is
anchor, spacer paragraph, table, spacer paragraph; otherwise the table is
appended followed by the two spacer paragraphs. -/
def insert_table (d : Doc) (text : Str) (q : Option Str) : Doc × Option Str :=
  let det := detect_table_format text
  if det.1 = .nofmt then
    (d, some ("Could not detect table format. Please use markdown (| col |) or tab-delimited format.".toList))
  else
    match q with
    | some qs =>
      match find_paragraph_by_text d.paraTexts qs (1/2) with
      | none => (d, some ("Could not find paragraph matching: '".toList ++ qs ++ "'".toList))
      | some (idx, _) =>
        match create_word_table det.2 with
        | none => (d, some ("Failed to create table".toList))
        | some tb =>
          let bp := blockIdxOfPara d.blocks idx
          (⟨d.blocks.take (bp + 1) ++
              [.par (mkParagraph []), .tbl tb, .par (mkParagraph [])] ++
              d.blocks.drop (bp + 1)⟩, none)
    | none =>
      match create_word_table det.2 with
      | none => (d, some ("Failed to create table".toList))
      | some tb =>
        (⟨d.blocks ++ [.tbl tb, .par (mkParagraph []), .par (mkParagraph [])]⟩, none)

/-! ## Tool-level wrapper

Every tool call is `load → (checks, mutation) → save`; an error return
happens before `save_document`, so the persisted document of an erroring
call is the loaded one.  `runTool` returns the persisted document and the
result's `error` field. -/

/-- The modelled tool invocations (the arguments of the corresponding
`@mcp.tool` functions). -/
inductive Tool where
  | fetchT (id : Str)
  | replacePlaceholderT (ph v : Str)
  | replacePlaceholdersT (m : List (Str × Str))
  | insertAfterTextT (q text : Str) (θ : ℚ) (bold italic : Bool) (al st : Option Str)
  | deleteParagraphT (q : Str) (θ : ℚ)
  | moveParagraphT (q tq pos : Str) (θ : ℚ)
  | mergeParagraphsT (q1 q2 sep : Str) (θ : ℚ)
  | splitParagraphT (q spl : Str) (θ : ℚ)
  | updateTableCellT (ti r c : Int) (text : Str)
  | insertTableT (text : Str) (q : Option Str)

/-- Run a tool call against the loaded document; the style validator of the
container collaborator is a parameter. -/
def runTool (styleOk : Str → Bool) : Tool → Doc → Doc × Option Str
  | .fetchT id, d => (d, (fetch d id).error)
  | .replacePlaceholderT ph v, d =>
    ((replace_placeholder d ph v).1, (replace_placeholder d ph v).2.1)
  | .replacePlaceholdersT m, d =>
    ((replace_placeholders d m).1, (replace_placeholders d m).2.1)
  | .insertAfterTextT q text θ bold italic al st, d =>
    ((insert_after_text styleOk d q text θ bold italic al st).1,
      (insert_after_text styleOk d q text θ bold italic al st).2.1)
  | .deleteParagraphT q θ, d => delete_paragraph d q θ
  | .moveParagraphT q tq pos θ, d => move_paragraph d q tq pos θ
  | .mergeParagraphsT q1 q2 sep θ, d => merge_paragraphs d q1 q2 sep θ
  | .splitParagraphT q spl θ, d => split_paragraph d q spl θ
  | .updateTableCellT ti r c text, d => update_table_cell d ti r c text
  | .insertTableT text q, d => insert_table d text q

/-! ## String lemmas -/

theorem isPrefixOf_iff (p s : Str) : p.isPrefixOf s = true ↔ ∃ w, s = p ++ w := by
  constructor
  · intro h
    rcases List.isPrefixOf_iff_prefix.mp h with ⟨w, hw⟩
    exact ⟨w, hw.symm⟩
  · rintro ⟨w, rfl⟩
    exact List.isPrefixOf_iff_prefix.mpr ⟨w, rfl⟩

theorem containsSub_iff (p s : Str) :
    containsSub p s = true ↔ ∃ u w, s = u ++ p ++ w := by
  induction s with
  | nil =>
    rw [containsSub]
    constructor
    · intro h
      refine ⟨[], [], ?_⟩
      have : p = [] := by simpa [List.isEmpty_iff] using h
      simp [this]
    · rintro ⟨u, w, hw⟩
      have h2 : u ++ p = [] := (List.append_eq_nil.mp hw.symm).1
      have : p = [] := (List.append_eq_nil.mp h2).2
      simp [this, List.isEmpty_iff]
  | cons c t ih =>
    rw [containsSub]
    constructor
    · intro h
      rcases Bool.or_eq_true_iff.mp h with h | h
      · rcases (isPrefixOf_iff p (c :: t)).mp h with ⟨w, hw⟩
        exact ⟨[], w, by simpa using hw⟩
      · rcases ih.mp h with ⟨u, w, hw⟩
        exact ⟨c :: u, w, by simp [hw]⟩
    · rintro ⟨u, w, hw⟩
      cases u with
      | nil =>
        apply Bool.or_eq_true_iff.mpr
        left
        exact (isPrefixOf_iff p (c :: t)).mpr ⟨w, by simpa using hw⟩
      | cons c' u' =>
        simp only [List.cons_append, List.cons.injEq] at hw
        obtain ⟨hc, ht⟩ := hw
        subst hc
        exact Bool.or_eq_true_iff.mpr (Or.inr (ih.mpr ⟨u', w, by simpa using ht⟩))

/-- Containment lifts through surrounding context. -/
theorem containsSub_of_part (p m x y : Str) (h : containsSub p m = true) :
    containsSub p (x ++ m ++ y) = true := by
  rcases (containsSub_iff p m).mp h with ⟨u, w, rfl⟩
  exact (containsSub_iff p _).mpr ⟨x ++ u, w ++ y, by simp⟩

/-- A non-containing string is left unchanged by `replace`, at any fuel. -/
theorem replaceAllF_of_neg (p v : Str) :
    ∀ (f : Nat) (s : Str), containsSub p s = false → replaceAllF p v f s = s := by
  intro f
  induction f with
  | zero => intro s _; rw [replaceAllF]
  | succ m ih =>
    intro s h
    cases s with
    | nil =>
      have hp : p ≠ [] := by
        intro hcon
        rw [hcon, containsSub] at h
        simp at h
      rw [replaceAllF, if_neg hp]
    | cons c t =>
      rw [containsSub] at h
      rw [Bool.or_eq_false_iff] at h
      obtain ⟨h1, h2⟩ := h
      have hp : p ≠ [] := by
        intro hcon
        rw [hcon] at h1
        simp [List.isPrefixOf] at h1
      rw [replaceAllF, if_neg hp]
      show (if p.isPrefixOf (c :: t) then _ else c :: replaceAllF p v m t) = c :: t
      rw [if_neg (by simp [h1])]
      rw [ih t h2]

/-- A non-containing string is left unchanged by `replace`. -/
theorem replaceAll_of_neg (p v s : Str) (h : containsSub p s = false) :
    replaceAll p v s = s :=
  replaceAllF_of_neg p v (s.length + 1) s h

/-- A default run for indexed access in statements. -/
def defRun : Run := { text := [] }

/-- `rtipRuns` on a list whose first containing run is at position `i`
replaces exactly that run's text in place. -/
theorem rtipRuns_first (old new : Str) :
    ∀ (runs : List Run) (i : Nat), i < runs.length →
      containsSub old (runs.getD i defRun).text = true →
      (∀ j, j < i → containsSub old ((runs.getD j defRun).text) = false) →
      rtipRuns old new runs =
        some (runs.set i
          { runs.getD i defRun with
              text := replaceAll old new (runs.getD i defRun).text }) := by
  intro runs
  induction runs with
  | nil => intro i hi _ _; simp at hi
  | cons r rs ih =>
    intro i hi hc hfirst
    cases i with
    | zero =>
      rw [rtipRuns]
      rw [if_pos (by simpa [List.getD] using hc)]
      simp [List.getD]
    | succ k =>
      have h0 : containsSub old r.text = false := by
        simpa [List.getD] using hfirst 0 (Nat.succ_pos k)
      rw [rtipRuns, if_neg (by simp [h0])]
      rw [ih k (by simpa using hi) (by simpa [List.getD] using hc)
        (fun j hj => by simpa [List.getD] using hfirst (j + 1) (by omega))]
      simp [List.getD]

/-- `rtipRuns` finds nothing when no single run contains the literal. -/
theorem rtipRuns_none (old new : Str) :
    ∀ (runs : List Run), (∀ r ∈ runs, containsSub old r.text = false) →
      rtipRuns old new runs = none := by
  intro runs
  induction runs with
  | nil => intro h; rw [rtipRuns]
  | cons r rs ih =>
    intro h
    rw [rtipRuns, if_neg (by simp [h r (List.mem_cons_self r rs)])]
    rw [ih (fun x hx => h x (List.mem_cons_of_mem r hx))]

/-- Any run's text is a factor of the concatenated run texts. -/
theorem paraText_decomp (runs : List Run) :
    ∀ (i : Nat), i < runs.length →
      ∃ x y, (runs.map Run.text).join = x ++ (runs.getD i defRun).text ++ y := by
  induction runs with
  | nil => intro i hi; simp at hi
  | cons r rs ih =>
    intro i hi
    cases i with
    | zero => exact ⟨[], (rs.map Run.text).join, by simp [List.getD]⟩
    | succ k =>
      rcases ih k (by simpa using hi) with ⟨x, y, hxy⟩
      refine ⟨r.text ++ x, y, ?_⟩
      have hj : ((r :: rs).map Run.text).join = r.text ++ (rs.map Run.text).join := by
        simp
      rw [hj, hxy]
      simp [List.getD]

/-- A containing paragraph always registers a replacement. -/
theorem rtip_snd (p : Para) (old new : Str) (h : containsSub old (paraText p) = true) :
    (replace_text_in_paragraph p old new).2 = true := by
  unfold replace_text_in_paragraph
  rw [if_pos h]
  split
  · rfl
  · split <;> rfl

/-- The paragraph pass counts `1` exactly on containment. -/
theorem rpPara_snd (ph v : Str) (p : Para) :
    (rpPara ph v p).2 = if containsSub ph (paraText p) then 1 else 0 := by
  by_cases h : containsSub ph (paraText p) = true
  · simp [rpPara, h, rtip_snd p ph v h]
  · simp [rpPara, h]

/-- The row pass counts one per containing cell. -/
theorem rpRow_snd (ph v : Str) :
    ∀ (row : List Str),
      (rpRow ph v row).2 = row.countP (fun c => containsSub ph c) := by
  intro row
  induction row with
  | nil => rfl
  | cons c cs ih =>
    rw [rpRow]
    dsimp only
    rw [ih, rpCell]
    by_cases hc : containsSub ph c = true
    · rw [if_pos hc]
      simp [List.countP_cons, hc, Nat.add_comm]
    · rw [if_neg hc]
      simp [List.countP_cons, hc]

/-- The table pass counts one per containing cell of the table. -/
theorem rpTbl_snd (ph v : Str) :
    ∀ (t : Tbl),
      (rpTbl ph v t).2 =
        (t.map (fun row => row.countP (fun c => containsSub ph c))).sum := by
  intro t
  induction t with
  | nil => rfl
  | cons row rows ih =>
    rw [rpTbl]
    dsimp only
    rw [ih, rpRow_snd]
    simp

/-- The document pass count: one per containing body paragraph plus one per
containing table cell. -/
theorem rpBlocks_snd (ph v : Str) :
    ∀ (bs : List Block),
      (rpBlocks ph v bs).2 =
        (bs.filterMap
            (fun b => match b with | .par p => some p | .tbl _ => none)).countP
            (fun p => containsSub ph (paraText p)) +
          ((bs.filterMap
              (fun b => match b with | .par _ => none | .tbl t => some t)).map
            (fun t => (t.map (fun row =>
              row.countP (fun c => containsSub ph c))).sum)).sum := by
  intro bs
  induction bs with
  | nil => rfl
  | cons b rest ih =>
    cases b with
    | par p =>
      rw [rpBlocks]
      dsimp only
      rw [ih, rpPara_snd]
      by_cases h : containsSub ph (paraText p) = true
      · simp [List.filterMap_cons, List.countP_cons, h]
        omega
      · simp [List.filterMap_cons, List.countP_cons, h]
    | tbl t =>
      rw [rpBlocks]
      dsimp only
      rw [ih, rpTbl_snd]
      simp [List.filterMap_cons]
      omega

/-- A zero-count row pass is the identity. -/
theorem rpRow_zero (ph v : Str) :
    ∀ (row : List Str), (rpRow ph v row).2 = 0 → (rpRow ph v row).1 = row := by
  intro row
  induction row with
  | nil => intro _; rfl
  | cons c cs ih =>
    intro h0
    rw [rpRow] at h0 ⊢
    dsimp only at h0 ⊢
    have hc : (rpCell ph v c).2 = 0 := by omega
    have hcs : (rpRow ph v cs).2 = 0 := by omega
    have hcell : (rpCell ph v c).1 = c := by
      rw [rpCell] at hc ⊢
      by_cases hcc : containsSub ph c = true
      · rw [if_pos hcc] at hc; simp at hc
      · rw [if_neg hcc]
    rw [hcell, ih hcs]

/-- A zero-count table pass is the identity. -/
theorem rpTbl_zero (ph v : Str) :
    ∀ (t : Tbl), (rpTbl ph v t).2 = 0 → (rpTbl ph v t).1 = t := by
  intro t
  induction t with
  | nil => intro _; rfl
  | cons row rows ih =>
    intro h0
    rw [rpTbl] at h0 ⊢
    dsimp only at h0 ⊢
    have h1 : (rpRow ph v row).2 = 0 := by omega
    have h2 : (rpTbl ph v rows).2 = 0 := by omega
    rw [rpRow_zero ph v row h1, ih h2]

/-- A zero-count document pass is the identity. -/
theorem rpBlocks_zero (ph v : Str) :
    ∀ (bs : List Block), (rpBlocks ph v bs).2 = 0 → (rpBlocks ph v bs).1 = bs := by
  intro bs
  induction bs with
  | nil => intro _; rfl
  | cons b rest ih =>
    intro h0
    cases b with
    | par p =>
      rw [rpBlocks] at h0 ⊢
      dsimp only at h0 ⊢
      have h1 : (rpPara ph v p).2 = 0 := by omega
      have h2 : (rpBlocks ph v rest).2 = 0 := by omega
      have hp : (rpPara ph v p).1 = p := by
        rw [rpPara_snd] at h1
        by_cases hc : containsSub ph (paraText p) = true
        · rw [if_pos hc] at h1; simp at h1
        · simp [rpPara, hc]
      rw [hp, ih h2]
    | tbl t =>
      rw [rpBlocks] at h0 ⊢
      dsimp only at h0 ⊢
      have h1 : (rpTbl ph v t).2 = 0 := by omega
      have h2 : (rpBlocks ph v rest).2 = 0 := by omega
      rw [rpTbl_zero ph v t h1, ih h2]

/-- A zero-count `rpDoc` is the identity. -/
theorem rpDoc_zero (ph v : Str) (d : Doc) (h : (rpDoc ph v d).2 = 0) :
    (rpDoc ph v d).1 = d := by
  cases d with
  | mk bs =>
    have hb := rpBlocks_zero ph v bs (by simpa [rpDoc] using h)
    simp [rpDoc, hb]

/-- Structure of the multi-key pass: never an error, one detail entry per
mapping key in order, the reported total is the sum of the detail counts,
and a zero total leaves the document unchanged. -/
theorem rps_struct :
    ∀ (m : List (Str × Str)) (d : Doc),
      (replace_placeholders d m).2.1 = none ∧
      (replace_placeholders d m).2.2.2.map Prod.fst = m.map Prod.fst ∧
      (replace_placeholders d m).2.2.1 =
        ((replace_placeholders d m).2.2.2.map Prod.snd).sum ∧
      ((replace_placeholders d m).2.2.1 = 0 → (replace_placeholders d m).1 = d) := by
  intro m
  induction m with
  | nil => intro d; simp [replace_placeholders]
  | cons e rest ih =>
    intro d
    obtain ⟨ph, v⟩ := e
    have ih1 := ih (rpDoc ph v d).1
    refine ⟨by simp [replace_placeholders], ?_, ?_, ?_⟩
    · simp [replace_placeholders, ih1.2.1]
    · simp [replace_placeholders, ih1.2.2.1]
    · intro h0
      simp only [replace_placeholders] at h0 ⊢
      have h1 : (rpDoc ph v d).2 = 0 := by omega
      have h2 : (replace_placeholders (rpDoc ph v d).1 rest).2.2.1 = 0 := by omega
      have hd : (rpDoc ph v d).1 = d := rpDoc_zero ph v d h1
      rw [hd] at h2 ⊢
      exact (ih d).2.2.2 h2

/-- `blockIdxOfPara` finds the body position of the `n`-th paragraph. -/
theorem blockIdxOfPara_spec :
    ∀ (bs : List Block) (n : Nat) (p : Para),
      (bs.filterMap
          (fun b => match b with | .par q => some q | .tbl _ => none)).get? n = some p →
      bs.get? (blockIdxOfPara bs n) = some (.par p) ∧ blockIdxOfPara bs n < bs.length := by
  intro bs
  induction bs with
  | nil => intro n p h; simp at h
  | cons b rest ih =>
    intro n p h
    cases b with
    | par q =>
      cases n with
      | zero =>
        simp [List.filterMap_cons] at h
        subst h
        exact ⟨rfl, by simp [blockIdxOfPara]⟩
      | succ k =>
        have h1 : (rest.filterMap
            (fun b => match b with | .par q => some q | .tbl _ => none)).get? k =
              some p := by
          simpa [List.filterMap_cons] using h
        rcases ih k p h1 with ⟨h2, h3⟩
        refine ⟨?_, ?_⟩
        · rw [blockIdxOfPara]
          simpa using h2
        · rw [blockIdxOfPara]
          simp
          omega
    | tbl t =>
      have h1 : (rest.filterMap
          (fun b => match b with | .par q => some q | .tbl _ => none)).get? n =
            some p := by
        simpa [List.filterMap_cons] using h
      rcases ih n p h1 with ⟨h2, h3⟩
      refine ⟨?_, ?_⟩
      · rw [blockIdxOfPara]
        simpa using h2
      · rw [blockIdxOfPara]
        simp
        omega

/-- Digit evaluation of the characters `natToStr` emits. -/
theorem digVal_digit (k : Nat) (h : k < 10) :
    digVal (Char.ofNat (48 + k)) = some k := by
  interval_cases k <;> decide

/-- Every character of `natToStrF` is a decimal digit. -/
theorem natToStrF_digits :
    ∀ (f n : Nat) (c : Char), c ∈ natToStrF f n → '0' ≤ c ∧ c ≤ '9' := by
  intro f
  induction f with
  | zero => intro n c hc; rw [natToStrF] at hc; simp at hc
  | succ m ih =>
    intro n c hc
    rw [natToStrF] at hc
    by_cases h10 : n < 10
    · rw [if_pos h10] at hc
      have hce : c = Char.ofNat (48 + n) := by simpa using hc
      subst hce
      interval_cases n <;> exact ⟨by decide, by decide⟩
    · rw [if_neg h10] at hc
      rcases List.mem_append.mp hc with h1 | h2
      · exact ih (n / 10) c h1
      · have hce : c = Char.ofNat (48 + n % 10) := by simpa using h2
        subst hce
        have hm : n % 10 < 10 := Nat.mod_lt _ (by norm_num)
        set m := n % 10 with hmm
        interval_cases m <;> exact ⟨by decide, by decide⟩

/-- `natToStr` is never empty. -/
theorem natToStr_ne_nil (n : Nat) : natToStr n ≠ [] := by
  rw [natToStr, natToStrF]
  by_cases h10 : n < 10
  · rw [if_pos h10]; simp
  · rw [if_neg h10]; simp

/-- `parseDigitsAux` over a concatenation continues from the first part's
accumulated value. -/
theorem parseDigitsAux_append :
    ∀ (xs ys : Str) (acc a : Nat), parseDigitsAux xs acc = some a →
      parseDigitsAux (xs ++ ys) acc = parseDigitsAux ys a := by
  intro xs
  induction xs with
  | nil =>
    intro ys acc a h
    rw [parseDigitsAux] at h
    injection h with h2
    subst h2
    rfl
  | cons c cs ih =>
    intro ys acc a h
    rw [parseDigitsAux] at h
    cases hdv : digVal c with
    | none =>
      rw [hdv] at h
      simp at h
    | some dv =>
      rw [hdv] at h
      rw [List.cons_append, parseDigitsAux, hdv]
      exact ih ys (acc * 10 + dv) a h

/-- Parsing the fueled digit string recovers the value. -/
theorem parse_natToStrF :
    ∀ (f n : Nat), n < f → ∀ (acc : Nat),
      parseDigitsAux (natToStrF f n) acc =
        some (acc * 10 ^ (natToStrF f n).length + n) := by
  intro f
  induction f with
  | zero => intro n hn; omega
  | succ m ih =>
    intro n hn acc
    rw [natToStrF]
    by_cases h10 : n < 10
    · rw [if_pos h10]
      rw [parseDigitsAux, digVal_digit n h10]
      show some (acc * 10 + n) = _
      simp
    · rw [if_neg h10]
      have hrec := ih (n / 10) (by omega) acc
      rw [parseDigitsAux_append _ _ acc _ hrec]
      have hm : n % 10 < 10 := Nat.mod_lt _ (by norm_num)
      rw [parseDigitsAux, digVal_digit (n % 10) hm]
      show some ((acc * 10 ^ (natToStrF m (n / 10)).length + n / 10) * 10 + n % 10) = _
      refine congrArg some ?_
      rw [List.length_append, List.length_singleton, pow_succ]
      have hdm : n / 10 * 10 + n % 10 = n := by omega
      have hexp : (acc * 10 ^ (natToStrF m (n / 10)).length + n / 10) * 10 + n % 10 =
          acc * (10 ^ (natToStrF m (n / 10)).length * 10) +
            (n / 10 * 10 + n % 10) := by ring
      rw [hexp, hdm]

/-- `int(str(n))` round-trip at the digit level. -/
theorem parseDigits_natToStr (n : Nat) : parseDigits (natToStr n) = some n := by
  have h := parse_natToStrF (n + 1) n (by omega) 0
  have h2 : parseDigitsAux (natToStr n) 0 = some n := by
    rw [natToStr]
    simpa using h
  cases hne : natToStr n with
  | nil => exact absurd hne (natToStr_ne_nil n)
  | cons c cs =>
    rw [hne] at h2
    rw [parseDigits]
    exact h2

/-- `int(str(n))` round-trip. -/
theorem parseIntPy_natToStr (n : Nat) : parseIntPy (natToStr n) = some (n : Int) := by
  cases hne : natToStr n with
  | nil => exact absurd hne (natToStr_ne_nil n)
  | cons c cs =>
    have hcm : c ∈ natToStr n := by rw [hne]; exact List.mem_cons_self c cs
    have hcd := natToStrF_digits (n + 1) n c (by rw [natToStr] at hcm; exact hcm)
    have hcne : c ≠ '-' := by
      intro hcon
      rw [hcon] at hcd
      exact absurd hcd.1 (by decide)
    rw [parseIntPy.eq_def]
    split
    · next rest heq =>
      injection heq with hh _
      exact absurd hh hcne
    · rw [← hne, parseDigits_natToStr]
      rfl

/-- Containment of a cons pattern forces its head into the text. -/
theorem containsSub_head_mem (c : Char) (p s : Str)
    (h : containsSub (c :: p) s = true) : c ∈ s := by
  rcases (containsSub_iff (c :: p) s).mp h with ⟨u, w, rfl⟩
  simp

/-- The literal `para-` never occurs in a digit string. -/
theorem containsSub_para_natToStr (n : Nat) :
    containsSub ("para-".toList) (natToStr n) = false := by
  cases hb : containsSub ("para-".toList) (natToStr n) with
  | false => rfl
  | true =>
    exfalso
    have hp : 'p' ∈ natToStr n :=
      containsSub_head_mem 'p' ("ara-".toList) (natToStr n) hb
    have hd := natToStrF_digits (n + 1) n 'p' (by rw [natToStr] at hp; exact hp)
    exact absurd hd.2 (by decide)

/-- Stripping a leading literal by `replace` when the remainder is clean. -/
theorem replaceAllF_pref (f : Nat) (p rest : Str) (hp : p ≠ [])
    (h : containsSub p rest = false) :
    replaceAllF p [] (f + 1) (p ++ rest) = rest := by
  cases p with
  | nil => exact absurd rfl hp
  | cons c p2 =>
    have hpre : List.isPrefixOf (c :: p2) (c :: (p2 ++ rest)) = true :=
      (isPrefixOf_iff _ _).mpr ⟨rest, by simp⟩
    rw [List.cons_append, replaceAllF, if_neg hp]
    show (if List.isPrefixOf (c :: p2) (c :: (p2 ++ rest)) = true then
        [] ++ replaceAllF (c :: p2) [] f ((c :: (p2 ++ rest)).drop (c :: p2).length)
      else c :: replaceAllF (c :: p2) [] f (p2 ++ rest)) = rest
    rw [if_pos hpre]
    have hdrop : (c :: (p2 ++ rest)).drop (c :: p2).length = rest := by
      simp [List.drop_left]
    rw [hdrop, List.nil_append]
    exact replaceAllF_of_neg (c :: p2) [] f rest h

theorem replaceAll_pref (p rest : Str) (hp : p ≠ [])
    (h : containsSub p rest = false) :
    replaceAll p [] (p ++ rest) = rest := by
  rw [replaceAll]
  exact replaceAllF_pref _ p rest hp h

/-- `fetch` on a round-trip id `para-<n>`: out of bounds yields the
not-found error, in bounds resolves the `n`-th body paragraph. -/
theorem fetch_id (d : Doc) (n : Nat) :
    (d.paras.length ≤ n →
      fetch d ("para-".toList ++ natToStr n) =
        { error := some ("Paragraph ".toList ++ ("para-".toList ++ natToStr n) ++
            " not found".toList) }) ∧
    (n < d.paras.length →
      fetch d ("para-".toList ++ natToStr n) =
        { idx := some n,
          text := some (paraText (d.paras.getD n defPara)) }) := by
  have hpre : List.isPrefixOf ("para-".toList) ("para-".toList ++ natToStr n) = true :=
    (isPrefixOf_iff _ _).mpr ⟨natToStr n, rfl⟩
  have hrepl : replaceAll ("para-".toList) [] ("para-".toList ++ natToStr n) =
      natToStr n :=
    replaceAll_pref _ _ (by decide) (containsSub_para_natToStr n)
  have hparse : parseIntPy (natToStr n) = some (n : Int) := parseIntPy_natToStr n
  constructor
  · intro hge
    rw [fetch, if_neg (by simp [hpre]), hrepl, hparse]
    show (if ((n : Int) < 0 ∨ (d.paras.length : Int) ≤ (n : Int)) then
        ({ error := some ("Paragraph ".toList ++ ("para-".toList ++ natToStr n) ++
          " not found".toList) } : FetchRes)
      else ({ idx := some (Int.toNat (n : Int)),
              text := some (paraText (d.paras.getD (Int.toNat (n : Int)) defPara)) } :
          FetchRes)) = _
    rw [if_pos (Or.inr (by exact_mod_cast hge))]
  · intro hlt
    rw [fetch, if_neg (by simp [hpre]), hrepl, hparse]
    show (if ((n : Int) < 0 ∨ (d.paras.length : Int) ≤ (n : Int)) then
        ({ error := some ("Paragraph ".toList ++ ("para-".toList ++ natToStr n) ++
          " not found".toList) } : FetchRes)
      else ({ idx := some (Int.toNat (n : Int)),
              text := some (paraText (d.paras.getD (Int.toNat (n : Int)) defPara)) } :
          FetchRes)) = _
    rw [if_neg (by push_neg; exact ⟨by positivity, by exact_mod_cast hlt⟩)]
    simp

/-- Provenance of a collected search hit: its id is `para-` plus the
paragraph's enumeration index over ALL body paragraphs. -/
theorem searchCollect_mem (q : Str) :
    ∀ (ps : List Para) (idx : Nat) (hit : SearchHit), hit ∈ searchCollect q ps idx →
      ∃ k p, ps.get? k = some p ∧ stripS (paraText p) ≠ [] ∧
        hit.id = "para-".toList ++ natToStr (idx + k) ∧
        hit.text = truncAt 200 (stripS (paraText p)) := by
  intro ps
  induction ps with
  | nil => intro idx hit h; rw [searchCollect] at h; simp at h
  | cons p0 rest ih =>
    intro idx hit h
    rw [searchCollect] at h
    by_cases h0 : stripS (paraText p0) = []
    · rw [if_pos h0] at h
      rcases ih (idx + 1) hit h with ⟨k, p, h1, h2, h3, h4⟩
      have heq : idx + 1 + k = idx + (k + 1) := by omega
      rw [heq] at h3
      exact ⟨k + 1, p, by simpa using h1, h2, h3, h4⟩
    · rw [if_neg h0] at h
      by_cases hc : containsSub (lowerS q) (lowerS (stripS (paraText p0))) = true
      · rw [if_pos hc, if_pos (by norm_num)] at h
        rcases List.mem_cons.mp h with heq | hmem
        · refine ⟨0, p0, by simp, h0, ?_, ?_⟩ <;> simp [heq]
        · rcases ih (idx + 1) hit hmem with ⟨k, p, h1, h2, h3, h4⟩
          have heq2 : idx + 1 + k = idx + (k + 1) := by omega
          rw [heq2] at h3
          exact ⟨k + 1, p, by simpa using h1, h2, h3, h4⟩
      · rw [if_neg hc] at h
        by_cases hs : (3 : ℚ)/10 ≤ similarity q (stripS (paraText p0))
        · rw [if_pos hs] at h
          rcases List.mem_cons.mp h with heq | hmem
          · refine ⟨0, p0, by simp, h0, ?_, ?_⟩ <;> simp [heq]
          · rcases ih (idx + 1) hit hmem with ⟨k, p, h1, h2, h3, h4⟩
            have heq2 : idx + 1 + k = idx + (k + 1) := by omega
            rw [heq2] at h3
            exact ⟨k + 1, p, by simpa using h1, h2, h3, h4⟩
        · rw [if_neg hs] at h
          rcases ih (idx + 1) hit h with ⟨k, p, h1, h2, h3, h4⟩
          have heq2 : idx + 1 + k = idx + (k + 1) := by omega
          rw [heq2] at h3
          exact ⟨k + 1, p, by simpa using h1, h2, h3, h4⟩

/-- Insertion keeps membership within the inserted element and the list. -/
theorem insDesc_sub (h : SearchHit) :
    ∀ (l : List SearchHit) (x : SearchHit), x ∈ insDesc h l → x = h ∨ x ∈ l := by
  intro l
  induction l with
  | nil => intro x hx; rw [insDesc] at hx; simpa using hx
  | cons y ys ih =>
    intro x hx
    rw [insDesc] at hx
    by_cases hcmp : y.score ≤ h.score
    · rw [if_pos hcmp] at hx
      rcases List.mem_cons.mp hx with h1 | h2
      · exact Or.inl h1
      · exact Or.inr h2
    · rw [if_neg hcmp] at hx
      rcases List.mem_cons.mp hx with h1 | h2
      · exact Or.inr (by rw [h1]; exact List.mem_cons_self y ys)
      · rcases ih x h2 with ha | hb
        · exact Or.inl ha
        · exact Or.inr (List.mem_cons_of_mem y hb)

/-- The sort is a permutation-level sublist for membership purposes. -/
theorem sortDesc_sub :
    ∀ (l : List SearchHit) (x : SearchHit), x ∈ sortDesc l → x ∈ l := by
  intro l
  induction l with
  | nil => intro x hx; rw [sortDesc] at hx; simp at hx
  | cons y ys ih =>
    intro x hx
    rw [sortDesc] at hx
    rcases insDesc_sub y (sortDesc ys) x hx with h1 | h2
    · rw [h1]; exact List.mem_cons_self y ys
    · exact List.mem_cons_of_mem y (ih x h2)

/-- A returned search hit was collected. -/
theorem search_mem (d : Doc) (q : Str) (hit : SearchHit) (h : hit ∈ search d q) :
    hit ∈ searchCollect q d.paras 0 := by
  rw [search] at h
  exact sortDesc_sub _ hit (List.take_subset 10 _ h)

/-! ## Claims -/

/-- C1 (counterexample): the containment tier does NOT always dominate.
The query `abcdefghi` is a substring of the first paragraph (score
`0.9 + 0.1·(18/39) = 123/130`), is not a substring of the second, yet the
second's pure similarity `18/19` is larger, and `find_paragraph_by_text`
selects the non-containing paragraph. -/
theorem C1_cex :
    fpContains ("abcdefghi".toList) ("abcdefghizzzzzzzzzzzzzzzzzzzzz".toList) = true ∧
    fpContains ("abcdefghi".toList) ("abcdexfghi".toList) = false ∧
    fpScore ("abcdefghi".toList) ("abcdefghizzzzzzzzzzzzzzzzzzzzz".toList) <
      fpScore ("abcdefghi".toList) ("abcdexfghi".toList) ∧
    find_paragraph_by_text
        ["abcdefghizzzzzzzzzzzzzzzzzzzzz".toList, "abcdexfghi".toList]
        ("abcdefghi".toList) (1/2) = some (1, 18/19) := by
  decide

/-- C1 (amended): a containment match scores at least `0.9`, and strictly
above any non-containing paragraph whose similarity is below `0.9`; only a
non-containing paragraph with similarity `≥ 0.9` can out-rank it. -/
theorem C1_thm (q t t' : Str)
    (hc : fpContains q (stripS t) = true)
    (hn : fpContains q (stripS t') = false)
    (hs : similarity q (stripS t') < 9/10) :
    9/10 ≤ fpScore q (stripS t) ∧
      fpScore q (stripS t') < fpScore q (stripS t) := by
  unfold fpScore
  rw [if_pos hc, if_neg (by simp [hn])]
  have h1 := similarity_nonneg q (stripS t)
  constructor <;> linarith

theorem C1_thm_witness :
    9/10 ≤ fpScore ("ab".toList) (stripS ("xaby".toList)) ∧
      fpScore ("ab".toList) (stripS ("qq".toList)) <
        fpScore ("ab".toList) (stripS ("xaby".toList)) :=
  C1_thm ("ab".toList) ("xaby".toList) ("qq".toList) (by decide) (by decide) (by decide)

/-- C2: the anchor resolver scans only paragraphs with non-empty stripped
text; a non-containing paragraph is selected only with similarity at least
the threshold; the winner dominates every candidate's tier score, strictly
dominating earlier-positioned candidates (so the first-seen paragraph wins
ties); and with no qualifying candidate the resolver returns `none` rather
than raising. -/
theorem C2_thm (texts : List Str) (q : Str) (θ : ℚ) :
    (∀ i s, find_paragraph_by_text texts q θ = some (i, s) →
      ∃ t, texts.get? i = some t ∧ stripS t ≠ [] ∧ s = fpScore q (stripS t) ∧
        (fpContains q (stripS t) = false → θ ≤ s)) ∧
    (∀ i s, find_paragraph_by_text texts q θ = some (i, s) →
      ∀ j t, texts.get? j = some t → fpCand q θ t →
        fpScore q (stripS t) ≤ s ∧ (j < i → fpScore q (stripS t) < s)) ∧
    ((∀ j t, texts.get? j = some t → ¬ fpCand q θ t) →
      find_paragraph_by_text texts q θ = none) := by
  have hmaster := fpLoop_master q θ texts 0 0 none
    (by intro i' s' h; cases h) (by intro i' s' h; cases h)
  refine ⟨?_, ?_, ?_⟩
  · intro i s hr
    rcases fpLoop_src q θ texts 0 0 none i s hr with h | ⟨k, t, h1, h2, h3, h4, h5⟩
    · cases h
    · exact ⟨t, by simpa [h2] using h1, h3, h4, h5⟩
  · intro i s hr j t hj hc
    have h := hmaster.1 i s hr
    exact ⟨h.2.1 j t hj hc, fun hji => h.2.2 j t hj hc (by omega)⟩
  · intro hnone
    exact hmaster.2 hnone

theorem C2_thm_witness :
    ∃ t, (["Intro".toList, "".toList, "Conclusion".toList].get? 0 = some t) ∧
      stripS t ≠ [] ∧ (1 : ℚ) = fpScore ("Intro".toList) (stripS t) ∧
      (fpContains ("Intro".toList) (stripS t) = false → (1/2 : ℚ) ≤ 1) :=
  (C2_thm ["Intro".toList, "".toList, "Conclusion".toList] ("Intro".toList) (1/2)).1
    0 1 (by decide)

/-- C8 (counterexample): `similarity` is not symmetric —
`similarity("BYRD","BRADY") = 4/9` but `similarity("BRADY","BYRD") = 2/3`
(`SequenceMatcher`'s greedy tie-breaking is order-dependent). -/
theorem C8_cex :
    similarity ("BYRD".toList) ("BRADY".toList) ≠
      similarity ("BRADY".toList) ("BYRD".toList) := by
  decide

/-- C8 (amended): `similarity(a, a) = 1` for non-empty `a` (indeed for all
`a`), the result always lies in `[0, 1]`, and the result is unaffected by
the letter case of either argument; symmetry, however, fails in general. -/
theorem C8_thm :
    (∀ a : Str, a ≠ [] → similarity a a = 1) ∧
    (∀ a b : Str, 0 ≤ similarity a b ∧ similarity a b ≤ 1) ∧
    (∀ a a' b b' : Str, lowerS a = lowerS a' → lowerS b = lowerS b' →
      similarity a b = similarity a' b') :=
  ⟨fun a _ => similarity_self a,
    fun a b => ⟨similarity_nonneg a b, similarity_le_one a b⟩,
    similarity_lower_inv⟩

theorem C8_thm_witness : similarity ("x".toList) ("x".toList) = 1 :=
  C8_thm.1 ("x".toList) (by decide)

/-- C5: whenever a modelled tool call returns a result carrying an `error`
field, the persisted document equals the loaded one: every error return in
the source happens before `save_document`, so a failed call never leaves
the document partially mutated. -/
theorem C5_thm (styleOk : Str → Bool) (tool : Tool) (d : Doc)
    (h : (runTool styleOk tool d).2.isSome = true) :
    (runTool styleOk tool d).1 = d := by
  cases tool with
  | fetchT id => rfl
  | replacePlaceholderT ph v =>
    by_cases hz : (rpDoc ph v d).2 = 0
    · simp [runTool, replace_placeholder, hz]
    · simp [runTool, replace_placeholder, hz] at h
  | replacePlaceholdersT m =>
    cases m with
    | nil => simp [runTool, replace_placeholders] at h
    | cons e rest =>
      obtain ⟨ph, v⟩ := e
      simp [runTool, replace_placeholders] at h
  | insertAfterTextT q text θ bold italic al st =>
    cases hf : find_paragraph_by_text d.paraTexts q θ with
    | none => simp [runTool, insert_after_text, hf]
    | some pr =>
      obtain ⟨i, sc⟩ := pr
      simp [runTool, insert_after_text, hf] at h
  | deleteParagraphT q θ =>
    cases hf : find_paragraph_by_text d.paraTexts q θ with
    | none => simp [runTool, delete_paragraph, hf]
    | some pr =>
      obtain ⟨i, sc⟩ := pr
      simp [runTool, delete_paragraph, hf] at h
  | moveParagraphT q tq pos θ =>
    cases hf1 : find_paragraph_by_text d.paraTexts q θ with
    | none => simp [runTool, move_paragraph, hf1]
    | some pr1 =>
      obtain ⟨si, s1⟩ := pr1
      cases hf2 : find_paragraph_by_text d.paraTexts tq θ with
      | none => simp [runTool, move_paragraph, hf1, hf2]
      | some pr2 =>
        obtain ⟨ti, s2⟩ := pr2
        by_cases hst : si = ti
        · simp [runTool, move_paragraph, hf1, hf2, hst]
        · simp [runTool, move_paragraph, hf1, hf2, hst, apply_ite] at h
  | mergeParagraphsT q1 q2 sep θ =>
    cases hf1 : find_paragraph_by_text d.paraTexts q1 θ with
    | none => simp [runTool, merge_paragraphs, hf1]
    | some pr1 =>
      obtain ⟨i1, s1⟩ := pr1
      cases hf2 : find_paragraph_by_text d.paraTexts q2 θ with
      | none => simp [runTool, merge_paragraphs, hf1, hf2]
      | some pr2 =>
        obtain ⟨i2, s2⟩ := pr2
        by_cases hi : i1 = i2
        · simp [runTool, merge_paragraphs, hf1, hf2, hi]
        · simp [runTool, merge_paragraphs, hf1, hf2, hi] at h
  | splitParagraphT q spl θ =>
    cases hf : find_paragraph_by_text d.paraTexts q θ with
    | none => simp [runTool, split_paragraph, hf]
    | some pr =>
      obtain ⟨i, sc⟩ := pr
      cases hsf : splitFirst spl (paraText (d.paras[i]?.getD defPara)) with
      | none => simp [runTool, split_paragraph, hf, hsf]
      | some presuf =>
        obtain ⟨pre, suf⟩ := presuf
        by_cases hns : lstripS suf = []
        · simp [runTool, split_paragraph, hf, hsf, hns]
        · simp [runTool, split_paragraph, hf, hsf, hns] at h
  | updateTableCellT ti r c text =>
    by_cases h1 : ti < 0 ∨ (d.tbls.length : Int) ≤ ti
    · simp [runTool, update_table_cell, h1]
    · by_cases h2 : r < 0 ∨ ((d.tbls[ti.toNat]?.getD []).length : Int) ≤ r
      · simp [runTool, update_table_cell, h1, h2]
      · by_cases h3 : c < 0 ∨ (tblCols (d.tbls[ti.toNat]?.getD []) : Int) ≤ c
        · simp [runTool, update_table_cell, h1, h2, h3]
        · simp [runTool, update_table_cell, h1, h2, h3] at h
  | insertTableT text q =>
    by_cases hdet : (detect_table_format text).1 = TFmt.nofmt
    · simp [runTool, insert_table, hdet]
    · cases q with
      | none =>
        cases hcw : create_word_table (detect_table_format text).2 with
        | none => simp [runTool, insert_table, hdet, hcw]
        | some tb => simp [runTool, insert_table, hdet, hcw] at h
      | some qs =>
        cases hf : find_paragraph_by_text d.paraTexts qs ((2 : ℚ)⁻¹) with
        | none => simp [runTool, insert_table, hdet, hf]
        | some pr =>
          obtain ⟨i, sc⟩ := pr
          cases hcw : create_word_table (detect_table_format text).2 with
          | none => simp [runTool, insert_table, hdet, hf, hcw]
          | some tb => simp [runTool, insert_table, hdet, hf, hcw] at h

theorem C5_thm_witness :
    (runTool (fun _ => true) (.fetchT ("x".toList)) ⟨[]⟩).1 = (⟨[]⟩ : Doc) :=
  C5_thm (fun _ => true) (.fetchT ("x".toList)) ⟨[]⟩ (by decide)

/-- C4: single-literal substitution over a paragraph.  If the literal is
whole in some run, exactly that run's text is replaced in place (all other
runs, and the replaced run's formatting, stay untouched); if no single run
contains it but the concatenated paragraph text does, every run is blanked
and the whole replaced text is written into the first run (one is created
when the paragraph had none).  Paragraph-level style and alignment are
never touched. -/
theorem C4_thm (p : Para) (old new : Str) :
    ((replace_text_in_paragraph p old new).1.style = p.style ∧
      (replace_text_in_paragraph p old new).1.align = p.align) ∧
    (∀ i, i < p.runs.length →
      containsSub old (p.runs.getD i defRun).text = true →
      (∀ j, j < i → containsSub old ((p.runs.getD j defRun).text) = false) →
      (replace_text_in_paragraph p old new).1.runs =
        p.runs.set i { p.runs.getD i defRun with
          text := replaceAll old new (p.runs.getD i defRun).text } ∧
      (replace_text_in_paragraph p old new).2 = true) ∧
    ((∀ r ∈ p.runs, containsSub old r.text = false) →
      containsSub old (paraText p) = true →
      (replace_text_in_paragraph p old new).1.runs =
        (match p.runs with
          | [] => [{ text := replaceAll old new (paraText p) }]
          | r0 :: rest => { r0 with text := replaceAll old new (paraText p) } ::
              rest.map (fun r => { r with text := [] })) ∧
      (replace_text_in_paragraph p old new).2 = true) := by
  refine ⟨?_, ?_, ?_⟩
  · unfold replace_text_in_paragraph
    split
    · split
      · simp
      · split <;> simp
    · simp
  · intro i hi hc hfirst
    have hp : containsSub old (paraText p) = true := by
      rcases paraText_decomp p.runs i hi with ⟨x, y, hxy⟩
      rw [paraText, hxy]
      exact containsSub_of_part _ _ x y hc
    unfold replace_text_in_paragraph
    rw [if_pos hp]
    rw [rtipRuns_first old new p.runs i hi hc hfirst]
    exact ⟨rfl, rfl⟩
  · intro hnone hp
    unfold replace_text_in_paragraph
    rw [if_pos hp, rtipRuns_none old new p.runs hnone]
    cases p.runs with
    | nil => exact ⟨rfl, rfl⟩
    | cons r0 rest => exact ⟨rfl, rfl⟩

theorem C4_thm_witness :
    ((replace_text_in_paragraph
        { runs := [{ text := "ab".toList }, { text := "cd".toList, bold := some true }] }
        ("cd".toList) ("X".toList)).1.runs =
          [{ text := "ab".toList }, { text := "X".toList, bold := some true }] ∧
      (replace_text_in_paragraph
        { runs := [{ text := "ab".toList }, { text := "cd".toList, bold := some true }] }
        ("cd".toList) ("X".toList)).2 = true) ∧
    ((replace_text_in_paragraph
        { runs := [{ text := "ab".toList }, { text := "cd".toList }] }
        ("bc".toList) ("Y".toList)).1.runs =
          [{ text := "aYd".toList }, { text := [] }] ∧
      (replace_text_in_paragraph
        { runs := [{ text := "ab".toList }, { text := "cd".toList }] }
        ("bc".toList) ("Y".toList)).2 = true) :=
  ⟨(C4_thm { runs := [{ text := "ab".toList }, { text := "cd".toList, bold := some true }] }
      ("cd".toList) ("X".toList)).2.1 1 (by decide) (by decide) (by decide),
    (C4_thm { runs := [{ text := "ab".toList }, { text := "cd".toList }] }
      ("bc".toList) ("Y".toList)).2.2 (by decide) (by decide)⟩

/-- C3 (counterexample): `replace_placeholder` does NOT replace every
occurrence, and its count is containing-paragraph/cell count, not
occurrence count.  A paragraph of two runs each containing `<<N>>` has two
occurrences, yet the tool reports `replacements = 1` and the second
occurrence survives in the saved document. -/
theorem C3_cex :
    countOccs ("<<N>>".toList)
        (paraText { runs := [{ text := "<<N>> x".toList },
          { text := "<<N>> y".toList }] }) = 2 ∧
    (replace_placeholder
        ⟨[.par { runs := [{ text := "<<N>> x".toList },
          { text := "<<N>> y".toList }] }]⟩
        ("<<N>>".toList) ("A".toList)).2.2 = 1 ∧
    containsSub ("<<N>>".toList)
      (paraText ((replace_placeholder
          ⟨[.par { runs := [{ text := "<<N>> x".toList },
            { text := "<<N>> y".toList }] }]⟩
          ("<<N>>".toList) ("A".toList)).1.paras.getD 0 defPara)) = true := by
  decide

/-- C3 (amended): the count `replace_placeholder` returns is the number of
containing body paragraphs plus the number of containing table cells; the
zero case is reported as an error exactly when that count is zero, and then
the document is unchanged — so `count = 0` is distinguishable from a
successful replace. -/
theorem C3_thm (d : Doc) (ph v : Str) :
    (replace_placeholder d ph v).2.2 =
        d.paras.countP (fun p => containsSub ph (paraText p)) +
          (d.tbls.map (fun t =>
            (t.map (fun row => row.countP (fun c => containsSub ph c))).sum)).sum ∧
    ((replace_placeholder d ph v).2.1.isSome = true ↔
      (replace_placeholder d ph v).2.2 = 0) ∧
    ((replace_placeholder d ph v).2.2 = 0 → (replace_placeholder d ph v).1 = d) := by
  have hcount : (rpDoc ph v d).2 =
      d.paras.countP (fun p => containsSub ph (paraText p)) +
        (d.tbls.map (fun t =>
          (t.map (fun row => row.countP (fun c => containsSub ph c))).sum)).sum := by
    rw [Doc.paras, Doc.tbls]
    exact rpBlocks_snd ph v d.blocks
  by_cases hz : (rpDoc ph v d).2 = 0
  · refine ⟨?_, ?_, ?_⟩
    · simp [replace_placeholder, hz]
      omega
    · simp [replace_placeholder, hz]
    · intro _
      simp [replace_placeholder, hz]
  · refine ⟨?_, ?_, ?_⟩
    · simp [replace_placeholder, hz]
      omega
    · simp [replace_placeholder, hz]
    · intro h0
      exfalso
      apply hz
      simpa [replace_placeholder, hz] using h0

theorem C3_thm_witness :
    ((replace_placeholder ⟨[.par { runs := [{ text := "Intro".toList }] }]⟩
        ("<<Name>>".toList) ("Ada".toList)).1 =
      (⟨[.par { runs := [{ text := "Intro".toList }] }]⟩ : Doc)) ∧
    (replace_placeholder
        ⟨[.par { runs := [{ text := "Intro".toList }] },
          .par { runs := [{ text := "<<Name>> is here.".toList }] },
          .par { runs := [{ text := "Conclusion".toList }] }]⟩
        ("<<Name>>".toList) ("Ada".toList)).1.paraTexts =
      ["Intro".toList, "Ada is here.".toList, "Conclusion".toList] ∧
    (replace_placeholder
        ⟨[.par { runs := [{ text := "Intro".toList }] },
          .par { runs := [{ text := "<<Name>> is here.".toList }] },
          .par { runs := [{ text := "Conclusion".toList }] }]⟩
        ("<<Name>>".toList) ("Ada".toList)).2.2 = 1 :=
  ⟨(C3_thm ⟨[.par { runs := [{ text := "Intro".toList }] }]⟩
      ("<<Name>>".toList) ("Ada".toList)).2.2 (by decide), by decide, by decide⟩

/-- C10: the multi-key `replace_placeholders` never returns an error — even
when every entry matched zero occurrences it reports success, with the
per-key counts only in the returned details (one detail per mapping key, in
order; the reported total is their sum; a zero total leaves the document
unchanged) — unlike single-key `replace_placeholder`, which turns a zero
count into an error result. -/
theorem C10_thm (d : Doc) (m : List (Str × Str)) :
    (replace_placeholders d m).2.1 = none ∧
    (replace_placeholders d m).2.2.2.map Prod.fst = m.map Prod.fst ∧
    (replace_placeholders d m).2.2.1 =
      ((replace_placeholders d m).2.2.2.map Prod.snd).sum ∧
    ((replace_placeholders d m).2.2.1 = 0 → (replace_placeholders d m).1 = d) ∧
    (∀ ph v, (replace_placeholder d ph v).2.2 = 0 →
      (replace_placeholder d ph v).2.1.isSome = true) := by
  refine ⟨(rps_struct m d).1, (rps_struct m d).2.1, (rps_struct m d).2.2.1,
    (rps_struct m d).2.2.2, ?_⟩
  intro ph v h0
  by_cases hz : (rpDoc ph v d).2 = 0
  · simp [replace_placeholder, hz]
  · exfalso
    apply hz
    simpa [replace_placeholder, hz] using h0

theorem C10_thm_witness :
    (replace_placeholders ⟨[.par { runs := [{ text := "Intro".toList }] }]⟩
        [("<<X>>".toList, "Y".toList)]).1 =
      (⟨[.par { runs := [{ text := "Intro".toList }] }]⟩ : Doc) ∧
    (replace_placeholder ⟨[.par { runs := [{ text := "Intro".toList }] }]⟩
        ("<<X>>".toList) ("Y".toList)).2.1.isSome = true :=
  ⟨(C10_thm ⟨[.par { runs := [{ text := "Intro".toList }] }]⟩
        [("<<X>>".toList, "Y".toList)]).2.2.2.1 (by decide),
    (C10_thm ⟨[.par { runs := [{ text := "Intro".toList }] }]⟩
        [("<<X>>".toList, "Y".toList)]).2.2.2.2 ("<<X>>".toList) ("Y".toList) (by decide)⟩

/-- C6: a successful `insert_after_text` is a true splice.  The resolved
anchor is the `idx`-th body paragraph; every block up to and including the
anchor keeps its position, the new (formatted) paragraph sits directly
after the anchor, and every block after the anchor is shifted by exactly
one — so the anchor's old successor becomes the new paragraph's successor
and all other relative order is preserved. -/
theorem C6_thm (styleOk : Str → Bool) (d : Doc) (q text : Str) (θ : ℚ)
    (bold italic : Bool) (al st : Option Str) (idx : Nat) (score : ℚ)
    (h : find_paragraph_by_text d.paraTexts q θ = some (idx, score)) :
    (insert_after_text styleOk d q text θ bold italic al st).2.1 = none ∧
    (insert_after_text styleOk d q text θ bold italic al st).2.2 = some (idx, score) ∧
    (insert_after_text styleOk d q text θ bold italic al st).1.blocks.length =
      d.blocks.length + 1 ∧
    (∃ p, d.paras.get? idx = some p ∧
      d.blocks.get? (blockIdxOfPara d.blocks idx) = some (.par p)) ∧
    (∀ j, j ≤ blockIdxOfPara d.blocks idx →
      (insert_after_text styleOk d q text θ bold italic al st).1.blocks.get? j =
        d.blocks.get? j) ∧
    (insert_after_text styleOk d q text θ bold italic al st).1.blocks.get?
        (blockIdxOfPara d.blocks idx + 1) =
      some (.par (apply_paragraph_formatting styleOk (mkParagraph text)
        bold italic al st)) ∧
    (∀ j, blockIdxOfPara d.blocks idx < j →
      (insert_after_text styleOk d q text θ bold italic al st).1.blocks.get? (j + 1) =
        d.blocks.get? j) := by
  have hidx : ∃ p, d.paras.get? idx = some p := by
    rcases fpLoop_src q θ d.paraTexts 0 0 none idx score h with hbest | hsrc
    · cases hbest
    · rcases hsrc with ⟨k, t, h1, h2, h3, h4, h5⟩
      have hk : k = idx := by omega
      subst hk
      rw [Doc.paraTexts, List.get?_map] at h1
      rcases Option.map_eq_some'.mp h1 with ⟨p, hp, hpt⟩
      exact ⟨p, hp⟩
  obtain ⟨p, hp⟩ := hidx
  have hp2 : (d.blocks.filterMap
      (fun b => match b with | .par q => some q | .tbl _ => none)).get? idx = some p := by
    rw [Doc.paras] at hp
    exact hp
  obtain ⟨hblk, hlt⟩ := blockIdxOfPara_spec d.blocks idx p hp2
  simp only [insert_after_text, h]
  refine ⟨trivial, trivial, ?_, ⟨p, hp, hblk⟩, ?_, ?_, ?_⟩
  · simp [List.length_take]
    omega
  · intro j hj
    have hlen_take : (d.blocks.take (blockIdxOfPara d.blocks idx + 1)).length =
        blockIdxOfPara d.blocks idx + 1 := by
      rw [List.length_take]
      omega
    rw [List.get?_append (by simp [hlen_take]; omega)]
    rw [List.get?_append (by rw [hlen_take]; omega)]
    rw [List.get?_take (by omega)]
  · have hlen_take : (d.blocks.take (blockIdxOfPara d.blocks idx + 1)).length =
        blockIdxOfPara d.blocks idx + 1 := by
      rw [List.length_take]
      omega
    rw [List.get?_append (by simp [hlen_take])]
    rw [List.get?_append_right (by rw [hlen_take])]
    simp [hlen_take]
  · intro j hj
    have hlen_take : (d.blocks.take (blockIdxOfPara d.blocks idx + 1)).length =
        blockIdxOfPara d.blocks idx + 1 := by
      rw [List.length_take]
      omega
    rw [List.get?_append_right (by simp [hlen_take]; omega)]
    rw [List.get?_drop]
    have heq : blockIdxOfPara d.blocks idx + 1 +
        (j + 1 - (d.blocks.take (blockIdxOfPara d.blocks idx + 1) ++
          [Block.par (apply_paragraph_formatting styleOk (mkParagraph text)
            bold italic al st)]).length) = j := by
      simp [hlen_take]
      omega
    rw [heq]

theorem C6_thm_witness :
    (insert_after_text (fun _ => true)
        ⟨[.par { runs := [{ text := "Intro".toList }] },
          .par { runs := [{ text := "<<Name>> is here.".toList }] },
          .par { runs := [{ text := "Conclusion".toList }] }]⟩
        ("Intro".toList) ("Body".toList) (1/2) false false none none).1.blocks.get?
      (blockIdxOfPara
        (⟨[.par { runs := [{ text := "Intro".toList }] },
          .par { runs := [{ text := "<<Name>> is here.".toList }] },
          .par { runs := [{ text := "Conclusion".toList }] }]⟩ : Doc).blocks 0 + 1) =
      some (.par (apply_paragraph_formatting (fun _ => true)
        (mkParagraph ("Body".toList)) false false none none)) ∧
    (insert_after_text (fun _ => true)
        ⟨[.par { runs := [{ text := "Intro".toList }] },
          .par { runs := [{ text := "<<Name>> is here.".toList }] },
          .par { runs := [{ text := "Conclusion".toList }] }]⟩
        ("Intro".toList) ("Body".toList) (1/2) false false none none).1.paraTexts =
      ["Intro".toList, "Body".toList, "<<Name>> is here.".toList,
        "Conclusion".toList] :=
  ⟨(C6_thm (fun _ => true)
      ⟨[.par { runs := [{ text := "Intro".toList }] },
        .par { runs := [{ text := "<<Name>> is here.".toList }] },
        .par { runs := [{ text := "Conclusion".toList }] }]⟩
      ("Intro".toList) ("Body".toList) (1/2) false false none none 0 1
      (by decide)).2.2.2.2.2.1, by decide⟩

/-- C7: classification of `detect_table_format`.  The markdown format is
returned exactly when the first non-blank trimmed line starts and ends with
a pipe AND at least one content row survives the separator-row drop; the
tab format exactly when markdown did not accept and at least two
tab-containing rows with a cell-count spread of at most one were collected;
the returned grid is the corresponding row list, and empty when neither
path accepts. -/
theorem C7_thm (t : Str) :
    ((detect_table_format t).1 = .markdown ↔
      (preLines t ≠ [] ∧
        ((preLines t).headD []).headD ' ' = '|' ∧
        ((preLines t).headD []).getLastD ' ' = '|' ∧
        mdRows (preLines t) ≠ [])) ∧
    ((detect_table_format t).1 = .tab ↔
      (¬ (preLines t ≠ [] ∧
          ((preLines t).headD []).headD ' ' = '|' ∧
          ((preLines t).headD []).getLastD ' ' = '|' ∧
          mdRows (preLines t) ≠ []) ∧
        tabOk (tabRows (preLines t)) = true)) ∧
    ((detect_table_format t).2 =
      match (detect_table_format t).1 with
      | .markdown => mdRows (preLines t)
      | .tab => tabRows (preLines t)
      | .nofmt => []) := by
  by_cases h0 : preLines t = []
  · have hd : detect_table_format t = (.nofmt, []) := by
      simp only [detect_table_format]
      rw [if_pos (List.isEmpty_iff.mpr h0)]
    have htr : tabRows (preLines t) = [] := by rw [h0]; rfl
    rw [hd]
    refine ⟨?_, ?_, rfl⟩
    · exact ⟨fun hx => absurd hx (by simp), fun hmd => absurd h0 hmd.1⟩
    · refine ⟨fun hx => absurd hx (by simp), ?_⟩
      rintro ⟨_, h3x⟩
      rw [htr] at h3x
      simp [tabOk] at h3x
  · by_cases h1 : ((preLines t).headD []).headD ' ' = '|' ∧
        ((preLines t).headD []).getLastD ' ' = '|'
    · by_cases h2 : mdRows (preLines t) = []
      · have hd : detect_table_format t = tabDetect (preLines t) := by
          simp only [detect_table_format]
          rw [if_neg (fun hcon => h0 (List.isEmpty_iff.mp hcon)), if_pos h1,
            if_neg (by rw [h2]; simp)]
        by_cases h3 : tabOk (tabRows (preLines t)) = true
        · have hd2 : tabDetect (preLines t) = (.tab, tabRows (preLines t)) := by
            simp only [tabDetect]
            rw [if_pos h3]
          rw [hd, hd2]
          refine ⟨?_, ?_, rfl⟩
          · refine ⟨fun hx => absurd hx (by simp), ?_⟩
            rintro ⟨_, _, _, hr⟩
            exact absurd h2 hr
          · exact ⟨fun _ => ⟨fun hmd => hmd.2.2.2 h2, h3⟩, fun _ => rfl⟩
        · have hd2 : tabDetect (preLines t) = (.nofmt, []) := by
            simp only [tabDetect]
            rw [if_neg h3]
          rw [hd, hd2]
          refine ⟨?_, ?_, rfl⟩
          · refine ⟨fun hx => absurd hx (by simp), ?_⟩
            rintro ⟨_, _, _, hr⟩
            exact absurd h2 hr
          · refine ⟨fun hx => absurd hx (by simp), ?_⟩
            rintro ⟨_, h3x⟩
            exact absurd h3x h3
      · obtain ⟨h1a, h1b⟩ := h1
        have hlen : 1 ≤ (mdRows (preLines t)).length := by
          have := List.length_pos.mpr h2
          omega
        have hd : detect_table_format t = (.markdown, mdRows (preLines t)) := by
          simp only [detect_table_format]
          rw [if_neg (fun hcon => h0 (List.isEmpty_iff.mp hcon)), if_pos ⟨h1a, h1b⟩,
            if_pos hlen]
        rw [hd]
        refine ⟨?_, ?_, rfl⟩
        · exact ⟨fun _ => ⟨h0, h1a, h1b, h2⟩, fun _ => rfl⟩
        · refine ⟨fun hx => absurd hx (by simp), ?_⟩
          rintro ⟨hmd, _⟩
          exact absurd ⟨h0, h1a, h1b, h2⟩ hmd
    · have hd : detect_table_format t = tabDetect (preLines t) := by
        simp only [detect_table_format]
        rw [if_neg (fun hcon => h0 (List.isEmpty_iff.mp hcon)), if_neg h1]
      by_cases h3 : tabOk (tabRows (preLines t)) = true
      · have hd2 : tabDetect (preLines t) = (.tab, tabRows (preLines t)) := by
          simp only [tabDetect]
          rw [if_pos h3]
        rw [hd, hd2]
        refine ⟨?_, ?_, rfl⟩
        · refine ⟨fun hx => absurd hx (by simp), ?_⟩
          rintro ⟨_, ha, hb, _⟩
          exact absurd ⟨ha, hb⟩ h1
        · exact ⟨fun _ => ⟨fun hmd => h1 ⟨hmd.2.1, hmd.2.2.1⟩, h3⟩, fun _ => rfl⟩
      · have hd2 : tabDetect (preLines t) = (.nofmt, []) := by
          simp only [tabDetect]
          rw [if_neg h3]
        rw [hd, hd2]
        refine ⟨?_, ?_, rfl⟩
        · refine ⟨fun hx => absurd hx (by simp), ?_⟩
          rintro ⟨_, ha, hb, _⟩
          exact absurd ⟨ha, hb⟩ h1
        · refine ⟨fun hx => absurd hx (by simp), ?_⟩
          rintro ⟨_, h3x⟩
          exact absurd h3x h3

theorem C7_thm_witness :
    (detect_table_format ("| A | B |\n|---|---|\n| 1 | 2 |".toList)).1 = .markdown ∧
    (detect_table_format ("a\tb\nc\td".toList)).1 = .tab :=
  ⟨(C7_thm ("| A | B |\n|---|---|\n| 1 | 2 |".toList)).1.mpr (by decide),
    (C7_thm ("a\tb\nc\td".toList)).2.1.mpr (by decide)⟩

/-- C9 (counterexample): search ids index ALL body paragraphs, not the
non-empty-filtered ones.  In a document whose first paragraph is empty and
whose second is `Hello`, the only hit for `Hello` carries id `para-1`,
although that paragraph is at position `0` among the non-empty-filtered
paragraphs (which would give `para-0`). -/
theorem C9_cex :
    (search ⟨[.par defPara, .par { runs := [{ text := "Hello".toList }] }]⟩
        ("Hello".toList)).map SearchHit.id = [("para-1".toList)] ∧
    ((⟨[.par defPara, .par { runs := [{ text := "Hello".toList }] }]⟩ : Doc).paras.filter
        (fun p => !(stripS (paraText p)).isEmpty)).map paraText = [("Hello".toList)] ∧
    ("para-1".toList ≠ "para-0".toList) := by
  decide

/-- C9 (amended): every id produced by `search` has the literal form
`para-<index>` where `<index>` is the paragraph's position among ALL body
paragraphs (empty ones included) at the time of the call; such an id
round-trips through `fetch` to that same index and paragraph text; and
fetching `para-<n>` with `n` outside the current paragraph count returns
exactly `{error: "Paragraph para-<n> not found"}`. -/
theorem C9_thm (d : Doc) (q : Str) :
    (∀ hit, hit ∈ search d q →
      ∃ idx p, d.paras.get? idx = some p ∧ stripS (paraText p) ≠ [] ∧
        hit.id = "para-".toList ++ natToStr idx ∧
        (fetch d hit.id).error = none ∧
        (fetch d hit.id).idx = some idx ∧
        (fetch d hit.id).text = some (paraText p)) ∧
    (∀ n, d.paras.length ≤ n →
      (fetch d ("para-".toList ++ natToStr n)).error =
        some ("Paragraph ".toList ++ ("para-".toList ++ natToStr n) ++
          " not found".toList)) := by
  constructor
  · intro hit hmem
    rcases searchCollect_mem q d.paras 0 hit (search_mem d q hit hmem) with
      ⟨k, p, h1, h2, h3, h4⟩
    have hid : hit.id = "para-".toList ++ natToStr k := by simpa using h3
    have hkl : k < d.paras.length := by
      rcases List.get?_eq_some.mp h1 with ⟨hlt, _⟩
      exact hlt
    have hf := (fetch_id d k).2 hkl
    have hg : d.paras[k]?.getD defPara = p := by
      rw [← List.get?_eq_getElem?, h1]
      rfl
    refine ⟨k, p, h1, h2, hid, ?_, ?_, ?_⟩ <;> rw [hid, hf]
    simp [hg]
  · intro n hge
    rw [(fetch_id d n).1 hge]

theorem C9_thm_witness :
    (∃ idx p,
      (⟨[.par defPara, .par { runs := [{ text := "Hello".toList }] }]⟩ : Doc).paras.get?
          idx = some p ∧
      stripS (paraText p) ≠ [] ∧
      ({ id := "para-1".toList, score := 9/10, text := "Hello".toList } :
        SearchHit).id = "para-".toList ++ natToStr idx ∧
      (fetch ⟨[.par defPara, .par { runs := [{ text := "Hello".toList }] }]⟩
        ({ id := "para-1".toList, score := 9/10, text := "Hello".toList} :
          SearchHit).id).error = none ∧
      (fetch ⟨[.par defPara, .par { runs := [{ text := "Hello".toList }] }]⟩
        ({ id := "para-1".toList, score := 9/10, text := "Hello".toList} :
          SearchHit).id).idx = some idx ∧
      (fetch ⟨[.par defPara, .par { runs := [{ text := "Hello".toList }] }]⟩
        ({ id := "para-1".toList, score := 9/10, text := "Hello".toList} :
          SearchHit).id).text = some (paraText p)) ∧
    (fetch ⟨[.par defPara, .par { runs := [{ text := "Hello".toList }] }]⟩
        ("para-".toList ++ natToStr 5)).error =
      some ("Paragraph ".toList ++ ("para-".toList ++ natToStr 5) ++
        " not found".toList) :=
  ⟨(C9_thm ⟨[.par defPara, .par { runs := [{ text := "Hello".toList }] }]⟩
      ("Hello".toList)).1
      { id := "para-1".toList, score := 9/10, text := "Hello".toList } (by decide),
    (C9_thm ⟨[.par defPara, .par { runs := [{ text := "Hello".toList }] }]⟩
      ("Hello".toList)).2 5 (by decide)⟩

end DocxSrv
